import Mathlib

/-!
Verification development for the HTML linkification / declaration
annotation engine of the godoc renderer (internal/render/linkify.go).

Strings are modelled at rune level as `List Char`; byte-level operations of
the Go source (e.g. `line[m1]`, `strings.IndexByte`) coincide with the
rune-level model on the character repertoire exercised here (ASCII plus the
typographic quotes introduced by `convertQuotes`), because every set the
code indexes into is pure ASCII and the multi-byte runes in play are never
members of those sets.  The Unicode classes `\pL`/`\pN` of the Go regexps
are modelled by their ASCII fragments; no claim depends on non-ASCII
letters.
-/

namespace Godoc

abbrev Str := List Char

/-- ASCII letter (model of the regexp class `\pL` / `unicode.IsLetter`). -/
def isLetter (c : Char) : Bool := ('a' ≤ c && c ≤ 'z') || ('A' ≤ c && c ≤ 'Z')

/-- ASCII digit (model of `[0-9]` / `\pN` / `unicode.IsNumber`). -/
def isDigit (c : Char) : Bool := '0' ≤ c && c ≤ '9'

/-- First character of the identifier regexp `[\pL_]`. -/
def isIdentStart (c : Char) : Bool := isLetter c || c == '_'

/-- Continuation character of the identifier regexp `[\pL_0-9]`. -/
def isIdentPart (c : Char) : Bool := isIdentStart c || isDigit c

/-- The regexp class `\s` as implemented by Go's regexp: `[\t\n\f\r ]`. -/
def isGoSpace (c : Char) : Bool :=
  c == ' ' || c == '\t' || c == '\n' || c == '\x0c' || c == '\r'

/-- Length of a leading match of `identRx = [\pL_][\pL_0-9]*` (greedy). -/
def identLen : Str → Option Nat
  | [] => none
  | c :: cs => if isIdentStart c then some (1 + (cs.takeWhile isIdentPart).length) else none

/-- Greedy continuation `(\.identRx)*` of the qualified-identifier regexp,
with explicit fuel (each iteration consumes at least two characters). -/
def qualTailF : Nat → Str → Nat
  | 0, _ => 0
  | fuel + 1, s =>
    match s with
    | '.' :: cs =>
      match identLen cs with
      | some n => n + 1 + qualTailF fuel (cs.drop n)
      | none => 0
    | _ => 0

/-- Length of a leading match of `qualIdentRx = identRx(\.identRx)*`. -/
def qualIdentLen (s : Str) : Option Nat :=
  match identLen s with
  | none => none
  | some n => some (n + qualTailF s.length (s.drop n))

/-- Greedy `(\.\d+)*` continuation of an RFC section number. -/
def dotDigitsF : Nat → Str → Nat
  | 0, _ => 0
  | fuel + 1, s =>
    match s with
    | '.' :: cs =>
      let ds := (cs.takeWhile isDigit).length
      if ds == 0 then 0 else ds + 1 + dotDigitsF fuel (cs.drop ds)
    | _ => 0

/-- Leading match of `\s+[Ss]ection\s+\d+(\.\d+)*` (the section part of
`rfcRx` after the optional comma). -/
def rfcSectionCore (s : Str) : Option Nat :=
  let ws := (s.takeWhile isGoSpace).length
  if ws == 0 then none else
  match s.drop ws with
  | c :: 'e' :: 'c' :: 't' :: 'i' :: 'o' :: 'n' :: rest =>
    if c == 'S' || c == 's' then
      let ws2 := (rest.takeWhile isGoSpace).length
      if ws2 == 0 then none else
      let rest2 := rest.drop ws2
      let ds := (rest2.takeWhile isDigit).length
      if ds == 0 then none else
      some (ws + 7 + ws2 + ds + dotDigitsF rest2.length (rest2.drop ds))
    else none
  | _ => none

/-- Length consumed by the optional group `(,?\s+[Ss]ection\s+(\d+(\.\d+)*))?`
of `rfcRx` (0 when the group matches empty). -/
def rfcSectionLen : Str → Nat
  | ',' :: rest =>
    match rfcSectionCore rest with
    | some n => n + 1
    | none => 0
  | s => (rfcSectionCore s).getD 0

/-- The `\d{3,5}` part of `rfcRx` and everything after it, on the input
already past `RFC\s+`; `ws` is the length of that whitespace run. -/
def rfcDigitsPart (ws : Nat) (rest2 : Str) : Option Nat :=
  if (rest2.takeWhile isDigit).length < 3 then none
  else some (3 + ws + min (rest2.takeWhile isDigit).length 5 +
    rfcSectionLen (rest2.drop (min (rest2.takeWhile isDigit).length 5)))

/-- The `\s+` part of `rfcRx` and everything after it, on the input already
past the literal `RFC`. -/
def rfcAfterRFC (t : Str) : Option Nat :=
  if (t.takeWhile isGoSpace).length == 0 then none
  else rfcDigitsPart (t.takeWhile isGoSpace).length (t.drop (t.takeWhile isGoSpace).length)

/-- Length of a leading match of
`rfcRx = RFC\s+(\d{3,5})(,?\s+[Ss]ection\s+(\d+(\.\d+)*))?`. -/
def rfcLen : Str → Option Nat
  | 'R' :: 'F' :: 'C' :: rest => rfcAfterRFC rest
  | _ => none

/-- The host-part character class `[a-zA-Z0-9_@\-.\[\]:]` of `urlRx`. -/
def isHostChar (c : Char) : Bool :=
  isLetter c || isDigit c || c == '_' || c == '@' || c == '-' || c == '.' ||
  c == '[' || c == ']' || c == ':'

/-- The punctuation class `[.,:;?!]` of the path part of `urlRx`. -/
def isPunctChar (c : Char) : Bool :=
  c == '.' || c == ',' || c == ':' || c == ';' || c == '?' || c == '!'

/-- The path character class `[a-zA-Z0-9$'()*+&#=@~_/\-\[\]%]` of `urlRx`. -/
def isPathChar (c : Char) : Bool :=
  isLetter c || isDigit c || c == '$' || c == '\'' || c == '(' || c == ')' ||
  c == '*' || c == '+' || c == '&' || c == '#' || c == '=' || c == '@' ||
  c == '~' || c == '_' || c == '/' || c == '-' || c == '[' || c == ']' || c == '%'

/-- Greedy match of the path part `([.,:;?!]*[pathchar])*`: each iteration
skips a punctuation run and must then consume a path character (the two
classes are disjoint, so backtracking inside an iteration never helps). -/
def pathLenF : Nat → Str → Nat
  | 0, _ => 0
  | fuel + 1, s =>
    let p := (s.takeWhile isPunctChar).length
    match s.drop p with
    | c :: rest => if isPathChar c then p + 1 + pathLenF fuel rest else 0
    | [] => 0

def pathLen (s : Str) : Nat := pathLenF s.length s

/-- The protocol alternatives `(https?|s?ftps?|file|gopher|mailto|nntp)` in
leftmost-first (Perl) preference order, as Go's regexp tries them. -/
def protoCands : List Str :=
  [("https").toList, ("http").toList, ("sftps").toList, ("sftp").toList,
   ("ftps").toList, ("ftp").toList, ("file").toList, ("gopher").toList,
   ("mailto").toList, ("nntp").toList]

/-- Try the protocol candidates in preference order; a candidate succeeds if
`proto://` is a literal prefix and at least one host character follows. -/
def urlLenFrom : List Str → Str → Option Nat
  | [], _ => none
  | pr :: prs, s =>
    let pre := pr ++ [':', '/', '/']
    if s.take pre.length == pre then
      let rest := s.drop pre.length
      let h := (rest.takeWhile isHostChar).length
      if h == 0 then urlLenFrom prs s
      else some (pre.length + h + pathLen (rest.drop h))
    else urlLenFrom prs s

/-- Length of a leading match of `urlRx = proto://host path`. -/
def urlLen (s : Str) : Option Nat := urlLenFrom protoCands s

/-- `matchRx = urlRx|rfcRx|qualIdentRx` at one position: leftmost-first
alternation order as in Go's regexp. -/
def matchAt (s : Str) : Option Nat :=
  match urlLen s with
  | some n => some n
  | none =>
    match rfcLen s with
    | some n => some n
    | none => qualIdentLen s

/-- `matchRx.FindStringIndex`: the leftmost position carrying a match of any
alternative, returned as the pair `(m0, m1)` of match bounds. -/
def findMatch : Str → Option (Nat × Nat)
  | [] => none
  | c :: cs =>
    match matchAt (c :: cs) with
    | some n => some (0, n)
    | none => (findMatch cs).map (fun p => (p.1 + 1, p.2 + 1))

/-- The three quote runes counted by `countQuotes`: `"`, `“`, `”`. -/
def isQuoteChar (c : Char) : Bool := c == '"' || c == '“' || c == '”'

/-- `countQuotes` counts the occurrences of the quote runes in `s` (the Go
loop walks `strings.LastIndexAny` occurrence by occurrence). -/
def countQuotes (s : Str) : Nat := (s.filter isQuoteChar).length

/-- `convertQuotes` turns ```` `` ```` into `“` and `''` into `”`
(`strings.NewReplacer`, left-to-right, non-overlapping). -/
def convertQuotes : Str → Str
  | '`' :: '`' :: rest => '“' :: convertQuotes rest
  | '\'' :: '\'' :: rest => '”' :: convertQuotes rest
  | c :: rest => c :: convertQuotes rest
  | [] => []

/-- Output fragments of `formatLineHTML`: escaped plain text, a rendered
link `{Href, Text}`, or delegation of a word to `identifierResolver.toHTML`
(the resolver itself lives outside this file's scope and is kept abstract). -/
inductive Frag where
  | escaped : Str → Frag
  | link : Str → Str → Frag
  | resolved : Str → Frag
deriving DecidableEq

/-- `line[m0:m1]` of the Go source. -/
def sliceWord (line : Str) (m0 m1 : Nat) : Str := (line.take m1).drop m0

def countC (c : Char) (s : Str) : Nat := (s.filter (· == c)).length

/-- `strings.LastIndexAny(s, [a, b])`. -/
def lastIdxAny2 (a b : Char) : Str → Option Nat
  | [] => none
  | c :: cs =>
    match lastIdxAny2 a b cs with
    | some i => some (i + 1)
    | none => if c == a || c == b then some 0 else none

/-- First URL-trim step of `formatLineHTML`: if a closing bracket occurs
before any opening bracket of the same kind (`IndexByte` semantics, where a
missing opener yields -1 and disables the trim), cut the match at it. -/
def trimEarlyClose (line : Str) (m0 m1 : Nat) (oc cc : Char) : Nat :=
  let word := sliceWord line m0 m1
  match word.findIdx? (· == cc), word.findIdx? (· == oc) with
  | some i, some j => if i < j then m0 + i else m1
  | _, _ => m1

/-- One step of the balanced-bracket correction:
`m1 = strings.LastIndexAny(line[:m1], "(" ")")`.  The `none` case cannot
arise on the loop's inputs (the word then has equal bracket counts); it is
rendered as keeping `m1`, where the Go code would slice out of bounds. -/
def balStep (line : Str) (m1 : Nat) (oc cc : Char) : Nat :=
  match lastIdxAny2 oc cc (line.take m1) with
  | some i => i
  | none => m1

/-- The bounded correction loop
`for i := 0; count(open) != count(close) && i < 10; i++`. -/
def balLoop (line : Str) (m0 : Nat) (oc cc : Char) : Nat → Nat → Nat
  | 0, m1 => m1
  | k + 1, m1 =>
    let word := sliceWord line m0 m1
    if countC oc word ≠ countC cc word then balLoop line m0 oc cc k (balStep line m1 oc cc)
    else m1

/-- The full URL-trimming sequence of the `strings.Contains(word, "://")`
case: early-close trims for `)` and `]`, then the two bounded balance loops. -/
def urlTrim (line : Str) (m0 m1 : Nat) : Nat :=
  let a := trimEarlyClose line m0 m1 '(' ')'
  let b := trimEarlyClose line m0 a '[' ']'
  let c := balLoop line m0 '(' ')' 10 b
  balLoop line m0 '[' ']' 10 c

/-- Field characters kept by the `strings.FieldsFunc` call of the RFC case:
letters, numbers and `'.'`. -/
def isFieldChar (c : Char) : Bool := isLetter c || isDigit c || c == '.'

/-- `strings.FieldsFunc(word, not isFieldChar)`: the maximal runs of field
characters, with fuel for kernel-reducible recursion. -/
def fieldsOfF : Nat → Str → List Str
  | 0, _ => []
  | fuel + 1, s =>
    match s with
    | [] => []
    | c :: cs =>
      if isFieldChar c then
        (c :: cs.takeWhile isFieldChar) :: fieldsOfF fuel (cs.dropWhile isFieldChar)
      else fieldsOfF fuel cs

def fieldsOf (s : Str) : List Str := fieldsOfF s.length s

def rfcBase : Str := ("https://rfc-editor.org/rfc/rfc").toList

/-- The RFC case of the word switch: ≥ 4 fields links the section anchor,
≥ 2 fields links the RFC page, and fewer fields emit nothing at all. -/
def rfcFrags (word : Str) : List Frag :=
  let fs := fieldsOf word
  if fs.length ≥ 4 then
    [Frag.link (rfcBase ++ fs.getD 1 [] ++ (".html#section-").toList ++ fs.getD 3 []) word]
  else if fs.length ≥ 2 then
    [Frag.link (rfcBase ++ fs.getD 1 [] ++ (".html").toList) word]
  else []

/-- `strings.Contains(word, "://")`. -/
def hasSchemeSep : Str → Bool
  | ':' :: '/' :: '/' :: _ => true
  | _ :: rest => hasSchemeSep rest
  | [] => false

/-- `unicode.IsSpace`, restricted to the Latin-1 repertoire Go lists:
`\t \n \v \f \r ' ' U+0085 U+00A0`. -/
def isUnicodeSpace (c : Char) : Bool :=
  c == ' ' || c == '\t' || c == '\n' || c == '\x0b' || c == '\x0c' ||
  c == '\r' || c == '\x85' || c == '\xa0'

/-- Guard of the RFC case:
`strings.HasPrefix(word, "RFC") && len(word) > 3 && unicode.IsSpace(word[3])`. -/
def rfcGuard : Str → Bool
  | 'R' :: 'F' :: 'C' :: c :: _ => isUnicodeSpace c
  | _ => false

/-- The allowed characters preceding an identifier: the Go string
`"\x00 \t()[]*\n"` of `validPrefix`. -/
def validBeforeChars : Str := ['\x00', ' ', '\t', '(', ')', '[', ']', '*', '\n']

/-- The allowed characters succeeding an identifier: the Go string
`"\x00 \t()[]:;,.'\n"` of `validSuffix`. -/
def validAfterChars : Str := ['\x00', ' ', '\t', '(', ')', '[', ']', ':', ';', ',', '.', '\'', '\n']

def validBefore (c : Char) : Bool := validBeforeChars.contains c

def validAfter (c : Char) : Bool := validAfterChars.contains c

/-- The `switch` of the match-processing body of `formatLineHTML`, on an
abstract iteration state: the URL case (with trimming), the RFC case, the
resolver delegation guarded by `forbidLinking`, and the escaped default.
`dh` is `r.disableHotlinking`; `hasIdr` is `idr != nil`. -/
def switchFrags (dh hasIdr : Bool) (line : Str) (m0 m1 : Nat) (lastC' nextC : Char)
    (nq' : Nat) : List Frag :=
  let word := sliceWord line m0 m1
  let forbid := !validBefore lastC' || !validAfter nextC || nq' % 2 != 0
  if hasSchemeSep word then
    let wordT := sliceWord line m0 (urlTrim line m0 m1)
    [Frag.link wordT wordT]
  else if rfcGuard word then rfcFrags word
  else if !forbid && !dh && hasIdr then [Frag.resolved word]
  else [Frag.escaped word]

/-- The effective right bound of the processed match: the URL case moves
`m1` through `urlTrim`, the other cases keep it. -/
def effM1 (line : Str) (m0 m1 : Nat) : Nat :=
  if hasSchemeSep (sliceWord line m0 m1) then urlTrim line m0 m1 else m1

/-- The scanning loop of `formatLineHTML`, with the loop state (remaining
line, `lastChar`, `numQuotes`) passed explicitly and structural fuel (each
iteration consumes at least one character, so `length + 1` suffices). -/
def formatLineLoop (dh hasIdr : Bool) : Nat → Str → Char → Nat → List Frag
  | 0, _, _, _ => []
  | fuel + 1, line, lastC, nq =>
    match line with
    | [] => []
    | l1 :: ls =>
      let line := l1 :: ls
      let mm := (findMatch line).getD (line.length, line.length)
      let m0 := mm.1
      let m1 := mm.2
      let nonWord := line.take m0
      let lastC' := if m0 > 0 then nonWord.getLastD lastC else lastC
      let nq' := if m0 > 0 then nq + countQuotes nonWord else nq
      let pre : List Frag := if m0 > 0 then [Frag.escaped nonWord] else []
      if m1 > m0 then
        let nextC := line.getD m1 '\x00'
        let m1e := effM1 line m0 m1
        pre ++ switchFrags dh hasIdr line m0 m1 lastC' nextC nq' ++
          formatLineLoop dh hasIdr fuel (line.drop m1e) lastC'
            (nq' + countQuotes (sliceWord line m0 m1e))
      else pre

/-- `formatLineHTML`: convert the quote digraphs, then scan. -/
def formatLineHTML (dh hasIdr : Bool) (line : Str) : List Frag :=
  let line := convertQuotes line
  formatLineLoop dh hasIdr (line.length + 1) line '\x00' 0

/-- Instrumented copy of `formatLineLoop` that records, with every fragment,
the loop state (`lastChar`, `nextChar`, `numQuotes`) at the iteration that
emitted it.  Projecting away the instrumentation recovers `formatLineLoop`
(proved below). -/
def formatLineLoopTr (dh hasIdr : Bool) : Nat → Str → Char → Nat → List (Frag × Char × Char × Nat)
  | 0, _, _, _ => []
  | fuel + 1, line, lastC, nq =>
    match line with
    | [] => []
    | l1 :: ls =>
      let line := l1 :: ls
      let mm := (findMatch line).getD (line.length, line.length)
      let m0 := mm.1
      let m1 := mm.2
      let nonWord := line.take m0
      let lastC' := if m0 > 0 then nonWord.getLastD lastC else lastC
      let nq' := if m0 > 0 then nq + countQuotes nonWord else nq
      let nextC := line.getD m1 '\x00'
      let st : Char × Char × Nat := (lastC', nextC, nq')
      let pre : List (Frag × Char × Char × Nat) :=
        if m0 > 0 then [(Frag.escaped nonWord, st)] else []
      if m1 > m0 then
        let m1e := effM1 line m0 m1
        pre ++ (switchFrags dh hasIdr line m0 m1 lastC' nextC nq').map (fun f => (f, st)) ++
          formatLineLoopTr dh hasIdr fuel (line.drop m1e) lastC'
            (nq' + countQuotes (sliceWord line m0 m1e))
      else pre

/-- The prefix set exactly as the claim states it (without `']'`); kept for
comparison against the implementation's `validBeforeChars`. -/
def claimedBeforeChars : Str := ['\x00', ' ', '\t', '(', '[', ')', '*', '\n']

/-- The line-type bitmask of `formatDeclHTML`: `codeType = 1 << 0`. -/
def codeType : Nat := 1

/-- The line-type bitmask of `formatDeclHTML`: `commentType = 1 << 1`. -/
def commentType : Nat := 2

/-- The inner walk of the anchor-hoist pass:
`j := i; for j > 0 && lineTypes[j-1] == commentType { j-- }`. -/
def hoistTarget (types : List Nat) : Nat → Nat
  | 0 => 0
  | j + 1 => if types.getD j 0 == commentType then hoistTarget types j else j + 1

/-- One iteration of the hoist loop at index `i`, acting on the current
array state: when the next line carries no anchors (or is past the end),
swap `anchorLines[i]` with `anchorLines[j]` for the walked-to `j`. -/
def hoistStep {α : Type} (types : List Nat) (st : List (List α)) (i : Nat) : List (List α) :=
  if i + 1 = st.length ∨ (st.getD (i + 1) []).length = 0 then
    (st.set i (st.getD (hoistTarget types i) [])).set (hoistTarget types i) (st.getD i [])
  else st

/-- The anchor-hoist pass of `formatDeclHTML`: the in-place loop
`for i := range anchorLines`, modelled as a fold over the indices. -/
def hoist {α : Type} (types : List Nat) (als : List (List α)) : List (List α) :=
  (List.range als.length).foldl (hoistStep types) als

/-- The loop condition of the hoist pass, phrased against the original
anchor array: the next line carries no anchors or there is no next line. -/
def nextEmptyA {α : Type} (als : List (List α)) (i : Nat) : Prop :=
  i + 1 = als.length ∨ als.getD (i + 1) [] = []

/-!
Declaration model for `formatDeclHTML` / `rewriteDecl`.  The go/ast
fragment that value and type declarations need is embedded with explicit
mutual lists (`ExprList`).  `Option`-typed composite-literal types are not
needed by any claim and the model gives every composite literal a type
expression; spec comments (`*ast.CommentGroup`) are lists of comment texts.
-/

mutual
inductive Expr where
  | ident : Str → Expr
  | selector : Expr → Str → Expr
  | basicLit : Bool → Str → Expr
  | compositeLit : Expr → ExprList → Expr
deriving DecidableEq
inductive ExprList where
  | enil : ExprList
  | econs : Expr → ExprList → ExprList
deriving DecidableEq
end

def ExprList.length : ExprList → Nat
  | .enil => 0
  | .econs _ es => es.length + 1

def ExprList.ofList : List Expr → ExprList
  | [] => .enil
  | e :: es => .econs e (ExprList.ofList es)

/-- `*ast.Field`: names, type, optional tag literal, trailing comments. -/
structure Field where
  names : List Str
  ftype : Expr
  tag : Option Expr
  comment : List Str
deriving DecidableEq

/-- `*ast.ValueSpec`: names, optional type, values, trailing comments. -/
structure ValueSpec where
  names : List Str
  vtype : Option Expr
  values : List Expr
  comment : List Str
deriving DecidableEq

/-- The body of a `*ast.TypeSpec`: a struct type with fields, or any other
type expression. -/
inductive TypeBody where
  | structType : List Field → TypeBody
  | plain : Expr → TypeBody
deriving DecidableEq

structure TypeSpec where
  tname : Str
  body : TypeBody
deriving DecidableEq

inductive Spec where
  | value : ValueSpec → Spec
  | typ : TypeSpec → Spec
deriving DecidableEq

inductive GenTok where
  | tconst
  | tvar
  | ttype
deriving DecidableEq

/-- A general declaration (`*ast.GenDecl`); function declarations carry no
value specs or fields and are inert under `rewriteDecl`, so the model
restricts to the general form. -/
structure Decl where
  tok : GenTok
  specs : List Spec
deriving DecidableEq

/-- `rewriteLongValue`: replace an over-long string literal by an empty one
of the same delimiter style, or clear the elements of an over-long
composite literal, in both cases returning the comment to attach; every
other node (and every short literal) passes through unchanged.  The length
check on the string subtracts the two delimiters before comparing. -/
def rewriteLongValue (maxStringSize maxElements : Int) : Expr → Expr × List Str
  | Expr.basicLit isStr v =>
    if !isStr then (Expr.basicLit isStr v, [])
    else if (v.length : Int) - 2 ≤ maxStringSize then (Expr.basicLit isStr v, [])
    else
      if v.length = 0 then
        (Expr.basicLit isStr v,
          [("/* ").toList ++ (toString ((v.length : Int) - 2)).toList ++
            ("-byte string literal not displayed */").toList])
      else if v.headD '"' = '`' then
        (Expr.basicLit isStr ['`', '`'],
          [("/* ").toList ++ (toString ((v.length : Int) - 2)).toList ++
            ("-byte string literal not displayed */").toList])
      else
        (Expr.basicLit isStr ['"', '"'],
          [("/* ").toList ++ (toString ((v.length : Int) - 2)).toList ++
            ("-byte string literal not displayed */").toList])
  | Expr.compositeLit ty es =>
    if (es.length : Int) > maxElements then
      (Expr.compositeLit ty ExprList.enil,
        [("/* ").toList ++ (toString es.length).toList ++ (" elements not displayed */").toList])
    else (Expr.compositeLit ty es, [])
  | e => (e, [])

/-- The per-spec value loop of the `*ast.ValueSpec` case of the rewrite
visitor: rewrite each value, collecting the comments to append (in value
order) to the one shared comment group of the spec. -/
def rewriteValues (maxS maxE : Int) : List Expr → List Expr × List Str
  | [] => ([], [])
  | v :: vs =>
    ((rewriteLongValue maxS maxE v).1 :: (rewriteValues maxS maxE vs).1,
     (rewriteLongValue maxS maxE v).2 ++ (rewriteValues maxS maxE vs).2)

/-- The `*ast.Field` case of the rewrite visitor: rewrite the tag, when
present, appending its comment to the field's comment group. -/
def rewriteField (maxS maxE : Int) (f : Field) : Field :=
  match f.tag with
  | some t =>
    { f with tag := some (rewriteLongValue maxS maxE t).1,
             comment := f.comment ++ (rewriteLongValue maxS maxE t).2 }
  | none => f

/-- One spec under the rewrite visitor (`ast.Walk` reaches every
`*ast.ValueSpec` and `*ast.Field` of the declaration; only those two node
kinds are acted upon, and only their direct values/tag). -/
def rewriteSpec (maxS maxE : Int) : Spec → Spec
  | Spec.value vs =>
    Spec.value { vs with values := (rewriteValues maxS maxE vs.values).1,
                         comment := vs.comment ++ (rewriteValues maxS maxE vs.values).2 }
  | Spec.typ ts =>
    match ts.body with
    | TypeBody.structType fs =>
      Spec.typ { ts with body := TypeBody.structType (fs.map (rewriteField maxS maxE)) }
    | TypeBody.plain _ => Spec.typ ts

/-- `rewriteDecl`: remove strings longer than `maxStringSize` and composite
literals longer than `maxElements`. -/
def rewriteDecl (maxS maxE : Int) (d : Decl) : Decl :=
  { d with specs := d.specs.map (rewriteSpec maxS maxE) }

mutual
/-- The identifiers of an expression in `ast.Inspect` order (ident; then for
a selector `X` before `Sel`; literals carry none; for a composite literal
the type before the elements). -/
def exprIdents : Expr → List Str
  | .ident n => [n]
  | .selector x s => exprIdents x ++ [s]
  | .basicLit _ _ => []
  | .compositeLit ty es => exprIdents ty ++ exprListIdents es
def exprListIdents : ExprList → List Str
  | .enil => []
  | .econs e es => exprIdents e ++ exprListIdents es
end

def optIdents : Option Expr → List Str
  | some e => exprIdents e
  | none => []

/-- `ast.Inspect` order within a field: names, type, tag. -/
def fieldIdents (f : Field) : List Str :=
  f.names ++ exprIdents f.ftype ++ optIdents f.tag

/-- `ast.Inspect` order within a spec: for a value spec names, type,
values; for a type spec the name then the type body. -/
def specIdents : Spec → List Str
  | .value vs => vs.names ++ optIdents vs.vtype ++ (vs.values.map exprIdents).flatten
  | .typ ts =>
    ts.tname :: (match ts.body with
      | .structType fs => (fs.map fieldIdents).flatten
      | .plain e => exprIdents e)

/-- The `*ast.Ident` nodes of the declaration in `ast.Inspect` order. -/
def declIdents (d : Decl) : List Str := (d.specs.map specIdents).flatten

/-- Token kinds of the re-tokenized declaration source. -/
inductive Tok where
  | ident : Str → Tok
  | keyword : Str → Tok
  | op : Str → Tok
  | strLit : Str → Tok
  | numLit : Str → Tok
  | cmt : Str → Tok
deriving DecidableEq

/-!
Modelled from the spec: the external pretty-printer (`go/format` /
`go/printer`, §4.5 "reformat the declaration to canonical source text") is
not part of this repository; it is modelled as a token emitter whose
traversal order over the tree is the same as `ast.Inspect`'s, which is the
property `formatDeclHTML` relies on.  Comma tokens separate list entries;
spec comments print after their spec.
-/
mutual
def printExpr : Expr → List Tok
  | .ident n => [Tok.ident n]
  | .selector x s => printExpr x ++ [Tok.op ['.'], Tok.ident s]
  | .basicLit isStr v => if isStr then [Tok.strLit v] else [Tok.numLit v]
  | .compositeLit ty es => printExpr ty ++ [Tok.op ['{']] ++ printExprList es ++ [Tok.op ['}']]
def printExprList : ExprList → List Tok
  | .enil => []
  | .econs e .enil => printExpr e
  | .econs e (.econs e2 es) =>
    printExpr e ++ [Tok.op [',']] ++ printExprList (ExprList.econs e2 es)
end

def printComments (cs : List Str) : List Tok := cs.map Tok.cmt

def commaSepIdents : List Str → List Tok
  | [] => []
  | [n] => [Tok.ident n]
  | n :: n2 :: ns => Tok.ident n :: Tok.op [','] :: commaSepIdents (n2 :: ns)

def printTokList : List (List Tok) → List Tok
  | [] => []
  | [t] => t
  | t :: t2 :: ts => t ++ [Tok.op [',']] ++ printTokList (t2 :: ts)

def printField (f : Field) : List Tok :=
  commaSepIdents f.names ++ printExpr f.ftype ++
    (match f.tag with | some t => printExpr t | none => []) ++
    printComments f.comment ++ [Tok.op [';']]

def printSpec : Spec → List Tok
  | .value vs =>
    commaSepIdents vs.names ++
    (match vs.vtype with | some t => printExpr t | none => []) ++
    (if vs.values.isEmpty then [] else [Tok.op ['=']]) ++
    printTokList (vs.values.map printExpr) ++
    printComments vs.comment ++ [Tok.op [';']]
  | .typ ts =>
    Tok.ident ts.tname ::
    (match ts.body with
      | .structType fs => Tok.keyword (("struct").toList) :: Tok.op ['{'] ::
          (fs.map printField).flatten ++ [Tok.op ['}']]
      | .plain e => printExpr e) ++ [Tok.op [';']]

/-- The token stream of the whole printed declaration. -/
def printDecl (d : Decl) : List Tok :=
  Tok.keyword (match d.tok with
    | .tconst => ("const").toList
    | .tvar => ("var").toList
    | .ttype => ("type").toList) ::
  Tok.op ['('] :: (d.specs.map printSpec).flatten ++ [Tok.op [')']]

/-- The names of the `IDENT` tokens of a token stream, in order. -/
def identToks (ts : List Tok) : List Str :=
  ts.filterMap (fun t => match t with | Tok.ident n => some n | _ => none)

/-- The source text of one token. -/
def renderTok : Tok → Str
  | .ident n => n
  | .keyword k => k
  | .op s => s
  | .strLit s => s
  | .numLit s => s
  | .cmt s => s

/-- The printed source: token texts separated by single spaces (the
canonical layout of the modelled printer). -/
def renderToks : List Tok → Str
  | [] => []
  | t :: ts => renderTok t ++ (' ' :: renderToks ts)

/-- The Go keywords the modelled printer can emit. -/
def goKeywords : List Str :=
  [("var").toList, ("const").toList, ("type").toList, ("struct").toList]

/-- The single-character operator tokens the modelled printer can emit. -/
def isOpChar (c : Char) : Bool :=
  c == '.' || c == ',' || c == '{' || c == '}' || c == '(' || c == ')' ||
  c == '=' || c == ';'

/-- Index just past the first `*``/` of a block comment body. -/
def cmtEnd : Str → Option Nat
  | [] => none
  | [_] => none
  | c :: c2 :: cs =>
    if c = '*' ∧ c2 = '/' then some 2
    else (cmtEnd (c2 :: cs)).map (· + 1)

/-- Modelled from the spec: re-tokenization by the external `go/scanner`
(§4.5 "re-tokenize it"), restricted to the token shapes the modelled
printer emits: whitespace separates tokens, identifier and keyword runs,
digit runs, double-quoted strings without escapes, backquoted raw strings,
block comments, and single-character operators.  Structural fuel keeps the
scan kernel-reducible; one unit is spent per token or skipped space. -/
def scanToksF : Nat → Str → List Tok
  | _, [] => []
  | 0, _ :: _ => []
  | fuel + 1, c :: cs =>
    if c == ' ' || c == '\n' || c == '\t' then scanToksF fuel cs
    else if isIdentStart c then
      (if goKeywords.contains (c :: cs.takeWhile isIdentPart) then
        Tok.keyword (c :: cs.takeWhile isIdentPart)
      else Tok.ident (c :: cs.takeWhile isIdentPart)) ::
        scanToksF fuel (cs.dropWhile isIdentPart)
    else if isDigit c then
      Tok.numLit (c :: cs.takeWhile isDigit) :: scanToksF fuel (cs.dropWhile isDigit)
    else if c == '"' then
      Tok.strLit ('"' :: (cs.takeWhile (fun x => !(x == '"')) ++ ['"'])) ::
        scanToksF fuel (cs.drop ((cs.takeWhile (fun x => !(x == '"'))).length + 1))
    else if c == '`' then
      Tok.strLit ('`' :: (cs.takeWhile (fun x => !(x == '`')) ++ ['`'])) ::
        scanToksF fuel (cs.drop ((cs.takeWhile (fun x => !(x == '`'))).length + 1))
    else if c == '/' then
      match cs with
      | '*' :: cs2 =>
        match cmtEnd cs2 with
        | some n => Tok.cmt ('/' :: '*' :: cs2.take n) :: scanToksF fuel (cs2.drop n)
        | none => [Tok.cmt ('/' :: '*' :: cs2)]
      | _ => Tok.op [c] :: scanToksF fuel cs
    else Tok.op [c] :: scanToksF fuel cs

def scanToks (s : Str) : List Tok := scanToksF s.length s

/-- A well-formed identifier spelling. -/
def wfName (n : Str) : Bool :=
  match n with
  | [] => false
  | c :: cs => isIdentStart c && cs.all isIdentPart

/-- The tail of a well-formed quoted literal: a body free of the quote
character, closed by exactly one final quote. -/
def wfStrTail (q : Char) : Str → Bool
  | [] => false
  | [c] => c == q
  | c :: c2 :: cs => !(c == q) && wfStrTail q (c2 :: cs)

/-- Well-formedness of one printed token: the shapes whose re-scan is
faithful (names that are not keywords, known keywords, single-character
operators, closed quote literals without inner quotes, digit runs, and
closed block comments whose body contains no terminator). -/
def wfTok : Tok → Bool
  | .ident n => wfName n && !goKeywords.contains n
  | .keyword k => goKeywords.contains k
  | .op s =>
    match s with
    | [c] => isOpChar c
    | _ => false
  | .strLit s =>
    match s with
    | [] => false
    | c :: rest => (c == '"' || c == '`') && wfStrTail c rest
  | .numLit s =>
    match s with
    | [] => false
    | c :: cs => isDigit c && cs.all isDigit
  | .cmt s =>
    match s with
    | c1 :: c2 :: rest => c1 == '/' && c2 == '*' && (cmtEnd rest == some rest.length)
    | _ => false

/-- The anchor-consumption loop of `formatDeclHTML` (`idIdx` bookkeeping):
each `IDENT` token reads the entry of `pts` at the current index and
advances it; every other token leaves the index unchanged. -/
def consumeAnchors {β : Type} (pts : List β) : List Tok → Nat → List (Str × Option β)
  | [], _ => []
  | t :: ts, idIdx =>
    match t with
    | Tok.ident n => (n, pts.get? idIdx) :: consumeAnchors pts ts (idIdx + 1)
    | _ => consumeAnchors pts ts idIdx

/-- A concrete declaration whose single value is a composite literal with
101 identifier elements: literal trimming deletes all of them. -/
def trimCountDecl : Decl :=
  Decl.mk GenTok.tvar [Spec.value ⟨[("V").toList], none,
    [Expr.compositeLit (Expr.ident (("T").toList))
      (ExprList.ofList (List.replicate 101 (Expr.ident (("A").toList))))], []⟩]

/-- A concrete declaration whose single value is the 3-byte string literal
`"a"` (delimiters included). -/
def trimStrDecl : Decl :=
  Decl.mk GenTok.tvar [Spec.value ⟨[("V").toList], none,
    [Expr.basicLit true (("\"a\"").toList)], []⟩]

/-- One output fragment of `codeHTML` (`codeElement` in `linkify.go`):
its text and whether it is a comment. -/
structure CodeElem where
  text : Str
  comment : Bool
deriving DecidableEq

/-- Internal segment of the example-code scan: a gap (whitespace and the
untagged token text between the explicitly recorded literals), a comment
literal, or a string literal (strings are exempt from indent
replacement). -/
inductive Seg where
  | gap : Str → Seg
  | cmt : Str → Seg
  | strTok : Str → Seg
deriving DecidableEq

def segRaw : Seg → Str
  | .gap t => t
  | .cmt t => t
  | .strTok t => t

def segIsCmt : Seg → Bool
  | .cmt _ => true
  | _ => false

def lowerA (c : Char) : Char :=
  if 'A' ≤ c ∧ c ≤ 'Z' then Char.ofNat (c.toNat + 32) else c

def isAsciiSpaceCh (c : Char) : Bool :=
  c == ' ' || c == '\t' || c == '\n' || c == '\r' || c == '\x0b' || c == '\x0c'

/-- Modelled from the spec: the canonical output-marker pattern
`(?i)//[[:space:]]*(unordered )?output:` (the `exampleOutputRx` that
`codeHTML` consults lives in a file outside this repository; §4.6 names
the canonical marker), tested at one position. -/
def isMarkAt : Str → Bool
  | c1 :: c2 :: rest =>
    if c1 = '/' ∧ c2 = '/' then
      let t := (rest.dropWhile isAsciiSpaceCh).map lowerA
      List.isPrefixOf (("unordered output:").toList) t ||
        List.isPrefixOf (("output:").toList) t
    else false
  | _ => false

/-- `MatchString`: the marker pattern matches somewhere in the literal. -/
def hasMarker : Str → Bool
  | [] => false
  | c :: cs => isMarkAt (c :: cs) || hasMarker cs

def segIsMarker : Seg → Bool
  | .cmt t => hasMarker t
  | _ => false

/-- Modelled from the spec: `indentLength` (also defined outside this
repository) measures the leading indentation run; §4.6 calls it the
"matching indentation" of bare-block code. -/
def isIndentChar (c : Char) : Bool := c == ' ' || c == '\t'

def trimNlLeft (s : Str) : Str := s.dropWhile (fun c => c == '\n')

def trimNlRight (s : Str) : Str := (s.reverse.dropWhile (fun c => c == '\n')).reverse

def trimNl (s : Str) : Str := trimNlRight (trimNlLeft s)

/-- The brace-wrap test of `codeHTML`: length at least 4, leading
brace-newline, trailing newline-brace. -/
def hasBraceWrap (s : Str) : Bool :=
  decide (4 ≤ s.length) && List.isPrefixOf ['\x7b', '\n'] s &&
    List.isPrefixOf ['\x7d', '\n'] s.reverse

/-- The brace-stripping head of `codeHTML`: on a brace-wrapped block, drop
the braces, trim the blank lines, and strip the first line's indentation,
remembering it for the later search-and-replace. -/
def stripBraces (s : Str) : Str × Str :=
  if hasBraceWrap s then
    let core := trimNl ((s.drop 2).reverse.drop 2).reverse
    let ind := core.takeWhile isIndentChar
    (core.drop ind.length, ind)
  else (s, [])

/-- `strings.Replace(s, "\n"+indent, "\n", -1)`: left-to-right
non-overlapping replacement, fuel-based (one unit per retained
character). -/
def replIndentF : Nat → Str → Str → Str
  | _, _, [] => []
  | 0, _, s => s
  | f + 1, ind, c :: cs =>
    if c = '\n' ∧ List.isPrefixOf ind cs then
      '\n' :: replIndentF f ind (cs.drop ind.length)
    else c :: replIndentF f ind cs

def replIndent (ind s : Str) : Str := replIndentF s.length ind s

/-- Modelled from the spec: the external `go/scanner` pass of `codeHTML`
(§4.6 "re-tokenizes, tagging comments"), restricted to the shapes the
claims observe: line and block comments and quoted strings become their
own segments, and all other source text accumulates into the gap segments
between them (the loop's per-token gap flushes are merged, which leaves
the observables — the concatenation of the texts, the comment segments
and their order, and the final segment — unchanged; escape sequences
inside string literals are not modelled). -/
def exScanF : Nat → Str → Str → List Seg
  | _, [], gap => [Seg.gap gap.reverse]
  | 0, _ :: _, gap => [Seg.gap gap.reverse]
  | f + 1, c :: cs, gap =>
    if c = '/' ∧ cs.headD ' ' = '/' then
      Seg.gap gap.reverse ::
        Seg.cmt ('/' :: '/' :: (cs.drop 1).takeWhile (fun x => !(x == '\n'))) ::
        exScanF f ((cs.drop 1).dropWhile (fun x => !(x == '\n'))) []
    else if c = '/' ∧ cs.headD ' ' = '*' then
      match cmtEnd (cs.drop 1) with
      | some n => Seg.gap gap.reverse :: Seg.cmt ('/' :: '*' :: (cs.drop 1).take n) ::
          exScanF f ((cs.drop 1).drop n) []
      | none => Seg.gap gap.reverse :: Seg.cmt ('/' :: '*' :: cs.drop 1) :: exScanF f [] []
    else if c = '"' ∨ c = '`' then
      Seg.gap gap.reverse ::
        Seg.strTok (c :: cs.take ((cs.takeWhile (fun x => !(x == c))).length + 1)) ::
        exScanF f (cs.drop ((cs.takeWhile (fun x => !(x == c))).length + 1)) []
    else exScanF f cs (c :: gap)

def exScan (s : Str) : List Seg := exScanF s.length s []

/-- The `outputOffset` bookkeeping of `codeHTML`: the index of the last
marker-matching comment segment, tested on the raw literal. -/
def lastMarkerIdx : List Seg → Option Nat
  | [] => none
  | sg :: rest =>
    match lastMarkerIdx rest with
    | some j => some (j + 1)
    | none => if segIsMarker sg then some 0 else none

/-- Text of a segment as recorded in `els`: gaps and comments undergo the
indent search-and-replace, string literals do not. -/
def segText (ind : Str) : Seg → Str
  | .gap t => replIndent ind t
  | .cmt t => replIndent ind t
  | .strTok t => t

def toElems (ind : Str) (l : List Seg) : List CodeElem :=
  l.map (fun sg => CodeElem.mk (segText ind sg) (segIsCmt sg))

/-- The trailing-newline trim of `codeHTML`: trim the final element's
text. -/
def finalTrim : List CodeElem → List CodeElem
  | [] => []
  | [e] => [CodeElem.mk (trimNlRight e.text) e.comment]
  | e :: e2 :: es => e :: finalTrim (e2 :: es)

def concatTexts (l : List CodeElem) : Str := (l.map CodeElem.text).flatten

def keptSegs (src : Str) : List Seg :=
  match lastMarkerIdx (exScan (stripBraces src).1) with
  | some i => (exScan (stripBraces src).1).take i
  | none => exScan (stripBraces src).1

/-- The fragment list of `codeHTML`: brace strip, scan, truncation at the
last output marker, indent replacement, final trim. -/
def codeEls (src : Str) : List CodeElem :=
  finalTrim (toElems (stripBraces src).2 (keptSegs src))

/-- Successful termination of a literal: the text is nonempty and ends in
a character other than newline (true of every closed comment or string
the scan can emit; an unterminated literal may swallow trailing
newlines). -/
def endsNonNl (t : Str) : Bool :=
  match t.reverse with
  | [] => false
  | c :: _ => !(c == '\n')

/-- Termination of the scanned literals, as the trailing-trim observable
needs it: every comment literal still ends in a non-newline character
after the indent search-and-replace (a line comment contains no newline,
a closed block comment ends in a slash), and every string literal ends in
a non-newline character (a closed one ends in its quote); only an
unterminated literal that swallows trailing newlines fails this. -/
def scanCleanR (ind : Str) (l : List Seg) : Bool :=
  l.all (fun sg => match sg with
    | Seg.gap _ => true
    | Seg.cmt t => endsNonNl (replIndent ind t)
    | Seg.strTok t => endsNonNl t)

/-- `*doc.Example` as `codeString` inspects it: the example itself may be
absent, and its `Code` and `Play` fields may each be absent. -/
structure Example where
  code : Option Str
  play : Option Str
deriving DecidableEq

/-- `codeString`: a missing example or missing code yields the distinct
error; otherwise the external formatter (modelled as the identity on the
chosen field) renders `Play` if present, else `Code`. -/
def codeString : Option Example → Except Str Str
  | none => Except.error (("Please include an example with code").toList)
  | some ex =>
    match ex.code with
    | none => Except.error (("Please include an example with code").toList)
    | some c =>
      match ex.play with
      | some p => Except.ok p
      | none => Except.ok c

/-- The `Renderer.codeHTML` wrapper: a `codeString` failure yields the
fixed placeholder fragment instead of propagating the error. -/
def codeHTMLTop (ex : Option Example) : List CodeElem :=
  match codeString ex with
  | Except.error _ => [CodeElem.mk (("Error rendering example code.").toList) false]
  | Except.ok s => codeEls s

/-- `badIDRx` (the class complement of underscore, letters, digits and
dot) on the modelled alphabet. -/
def isBadIDChar (c : Char) : Bool :=
  !(c == '_' || isLetter c || isDigit c || c == '.')

/-- `ValidateGoDottedExpr`: panics (modelled as `none`) precisely when
some character matches `badIDRx`; otherwise returns normally, reporting
nothing. -/
def validateGoDottedExpr (s : Str) : Option Unit :=
  if s.any isBadIDChar then none else some ()

/-- `SafeGoID`: validate, then pass the string through unchanged
(`RiskilyAssumeIdentifier` wraps it verbatim). -/
def safeGoID (s : Str) : Option Str :=
  match validateGoDottedExpr s with
  | none => none
  | some _ => some s

-- ==================== THEOREMS ====================

theorem fieldsOfF_nil (fuel : Nat) : fieldsOfF fuel [] = [] := by
  cases fuel <;> rfl

theorem length_dropWhile_le' (p : Char → Bool) (l : Str) :
    (l.dropWhile p).length ≤ l.length := by
  induction l with
  | nil => simp
  | cons c cs ih =>
    by_cases h : p c
    · simp only [List.dropWhile, h, List.length_cons]; omega
    · simp [List.dropWhile, h]

theorem fieldsOfF_congr : ∀ fuel₁ fuel₂ s, s.length ≤ fuel₁ → s.length ≤ fuel₂ →
    fieldsOfF fuel₁ s = fieldsOfF fuel₂ s := by
  intro fuel₁
  induction fuel₁ with
  | zero =>
    intro fuel₂ s h1 _
    have : s = [] := List.length_eq_zero.mp (Nat.le_zero.mp h1)
    subst this
    simp [fieldsOfF_nil]
  | succ f ih =>
    intro fuel₂ s h1 h2
    cases s with
    | nil => simp [fieldsOfF_nil]
    | cons c cs =>
      cases fuel₂ with
      | zero => simp at h2
      | succ f2 =>
        simp only [List.length_cons] at h1 h2
        have h1' : cs.length ≤ f := by omega
        have h2' : cs.length ≤ f2 := by omega
        simp only [fieldsOfF]
        by_cases hc : isFieldChar c = true
        · simp only [hc, if_true]
          have hd : (cs.dropWhile isFieldChar).length ≤ cs.length :=
            length_dropWhile_le' _ _
          rw [ih f2 _ (Nat.le_trans hd h1') (Nat.le_trans hd h2')]
        · simp only [hc, if_false]
          exact ih f2 cs h1' h2'

theorem fieldsOfF_eq_fieldsOf (fuel : Nat) (s : Str) (h : s.length ≤ fuel) :
    fieldsOfF fuel s = fieldsOf s :=
  fieldsOfF_congr fuel s.length s h (Nat.le_refl _)

theorem fieldsOf_cons_field (c : Char) (cs : Str) (h : isFieldChar c = true) :
    fieldsOf (c :: cs) = (c :: cs.takeWhile isFieldChar) :: fieldsOf (cs.dropWhile isFieldChar) := by
  show fieldsOfF (c :: cs).length (c :: cs) = _
  simp only [List.length_cons, fieldsOfF, h, if_true]
  rw [fieldsOfF_eq_fieldsOf _ _ (length_dropWhile_le' _ _)]

theorem fieldsOf_cons_nonfield (c : Char) (cs : Str) (h : isFieldChar c = false) :
    fieldsOf (c :: cs) = fieldsOf cs := by
  show fieldsOfF (c :: cs).length (c :: cs) = _
  simp only [List.length_cons, fieldsOfF, h, if_false]
  exact fieldsOfF_eq_fieldsOf _ _ (Nat.le_refl _)

theorem space_not_field {c : Char} (h : isGoSpace c = true) : isFieldChar c = false := by
  simp only [isGoSpace, Bool.or_eq_true, beq_iff_eq] at h
  rcases h with ((((h | h) | h) | h) | h) <;> subst h <;> rfl

theorem fieldsOf_skip : ∀ (sp : Str) (t : Str), (∀ c ∈ sp, isFieldChar c = false) →
    fieldsOf (sp ++ t) = fieldsOf t := by
  intro sp
  induction sp with
  | nil => intro t _; rfl
  | cons c cs ih =>
    intro t h
    have hc : isFieldChar c = false := h c (by simp)
    show fieldsOf (c :: (cs ++ t)) = fieldsOf t
    rw [fieldsOf_cons_nonfield _ _ hc]
    exact ih t (fun x hx => h x (by simp [hx]))

theorem fields_rfc_ge_two (sp rest : Str) (hsp : sp ≠ [])
    (hspc : ∀ c ∈ sp, isGoSpace c = true)
    (d : Char) (ds : Str) (hrest : rest = d :: ds) (hd : isDigit d = true) :
    2 ≤ (fieldsOf ('R' :: 'F' :: 'C' :: (sp ++ rest))).length := by
  obtain ⟨c0, sp', rfl⟩ : ∃ c0 sp', sp = c0 :: sp' := by
    cases sp with
    | nil => exact absurd rfl hsp
    | cons a b => exact ⟨a, b, rfl⟩
  have hc0 : isFieldChar c0 = false := space_not_field (hspc c0 (by simp))
  have hdf : isFieldChar d = true := by simp [isFieldChar, hd]
  subst hrest
  rw [fieldsOf_cons_field _ _ (by rfl)]
  have hdw : List.dropWhile isFieldChar ('F' :: 'C' :: (c0 :: sp' ++ d :: ds)) =
      c0 :: sp' ++ d :: ds := by
    simp [List.dropWhile_cons, hc0, show isFieldChar 'F' = true from rfl,
      show isFieldChar 'C' = true from rfl]
  rw [hdw]
  rw [show (c0 :: sp' ++ d :: ds) = (c0 :: sp') ++ (d :: ds) by simp]
  rw [fieldsOf_skip (c0 :: sp') (d :: ds) (fun x hx => space_not_field (hspc x hx))]
  rw [fieldsOf_cons_field _ _ hdf]
  simp

theorem resolved_not_in_rfcFrags (w v : Str) : Frag.resolved v ∉ rfcFrags w := by
  simp only [rfcFrags]
  split
  · simp
  · split <;> simp

theorem switchFrags_resolved (dh hi : Bool) (line : Str) (m0 m1 : Nat)
    (lastC' nextC : Char) (nq' : Nat) (w : Str)
    (h : Frag.resolved w ∈ switchFrags dh hi line m0 m1 lastC' nextC nq') :
    validBefore lastC' = true ∧ validAfter nextC = true ∧ nq' % 2 = 0 ∧
      dh = false ∧ hi = true := by
  simp only [switchFrags] at h
  split at h
  · simp at h
  · split at h
    · exact absurd h (resolved_not_in_rfcFrags _ _)
    · split at h
      · rename_i hguard
        simp only [Bool.and_eq_true, Bool.not_eq_true'] at hguard
        obtain ⟨⟨hforbid, hdh⟩, hhi⟩ := hguard
        simp only [Bool.or_eq_false_iff, Bool.not_eq_false', bne_eq_false_iff_eq] at hforbid
        obtain ⟨⟨hvb, hva⟩, hq⟩ := hforbid
        exact ⟨hvb, hva, hq, hdh, hhi⟩
      · simp at h

theorem loopTr_proj (dh hi : Bool) : ∀ (fuel : Nat) (line : Str) (lastC : Char) (nq : Nat),
    formatLineLoop dh hi fuel line lastC nq =
      (formatLineLoopTr dh hi fuel line lastC nq).map Prod.fst := by
  intro fuel
  induction fuel with
  | zero => intro line lastC nq; rfl
  | succ n ih =>
    intro line lastC nq
    cases line with
    | nil => rfl
    | cons c cs =>
      simp only [formatLineLoop, formatLineLoopTr]
      split
      · simp [ih, List.map_map, Function.comp_def,
          apply_ite (List.map (Prod.fst (β := Char × Char × Nat)))]
      · simp [apply_ite (List.map (Prod.fst (β := Char × Char × Nat)))]

theorem loopTr_resolved (dh hi : Bool) :
    ∀ (fuel : Nat) (line : Str) (lastC : Char) (nq : Nat) (w : Str) (a b : Char) (n : Nat),
    (Frag.resolved w, a, b, n) ∈ formatLineLoopTr dh hi fuel line lastC nq →
    validBefore a = true ∧ validAfter b = true ∧ n % 2 = 0 ∧ dh = false ∧ hi = true := by
  intro fuel
  induction fuel with
  | zero => intro line lastC nq w a b n h; simp [formatLineLoopTr] at h
  | succ f ih =>
    intro line lastC nq w a b n h
    cases line with
    | nil => simp [formatLineLoopTr] at h
    | cons c cs =>
      simp only [formatLineLoopTr] at h
      split at h
      · rcases List.mem_append.mp h with h' | h'
        · rcases List.mem_append.mp h' with h'' | h''
          · split at h''
            · simp only [List.mem_singleton, Prod.mk.injEq] at h''
              exact absurd h''.1 (by simp)
            · simp at h''
          · rcases List.mem_map.mp h'' with ⟨f', hf', heq⟩
            have h1 : f' = Frag.resolved w := by
              have := congrArg Prod.fst heq; simpa using this
            have h2 := congrArg Prod.snd heq
            simp only [Prod.mk.injEq] at h2
            obtain ⟨ha, hb, hn⟩ := h2
            rw [h1] at hf'
            subst ha; subst hb; subst hn
            exact switchFrags_resolved dh hi _ _ _ _ _ _ w hf'
        · exact ih _ _ _ w a b n h'
      · split at h
        · simp only [List.mem_singleton, Prod.mk.injEq] at h
          exact absurd h.1 (by simp)
        · simp at h

theorem findIdx?_lt_len (p : Char → Bool) :
    ∀ (l : Str) (i j : Nat), List.findIdx? p l i = some j → j < i + l.length := by
  intro l
  induction l with
  | nil => intro i j h; simp [List.findIdx?] at h
  | cons c cs ih =>
    intro i j h
    rw [List.findIdx?_cons] at h
    split at h
    · simp only [Option.some.injEq] at h
      subst h
      simp
    · have := ih (i + 1) j h
      simp only [List.length_cons]
      omega

theorem lastIdxAny2_lt (a b : Char) :
    ∀ (l : Str) (i : Nat), lastIdxAny2 a b l = some i → i < l.length := by
  intro l
  induction l with
  | nil => intro i h; simp [lastIdxAny2] at h
  | cons c cs ih =>
    intro i h
    simp only [lastIdxAny2] at h
    split at h
    · rename_i j hj
      simp only [Option.some.injEq] at h
      subst h
      have := ih j hj
      simp only [List.length_cons]
      omega
    · split at h
      · simp only [Option.some.injEq] at h
        subst h
        simp
      · simp at h

theorem balStep_le (line : Str) (m1 : Nat) (oc cc : Char) :
    balStep line m1 oc cc ≤ m1 := by
  unfold balStep
  split
  · rename_i i hi
    have h1 := lastIdxAny2_lt oc cc _ _ hi
    have h2 : (line.take m1).length ≤ m1 := List.length_take_le m1 line
    omega
  · exact Nat.le_refl _

theorem balLoop_le (line : Str) (m0 : Nat) (oc cc : Char) :
    ∀ (k m1 : Nat), balLoop line m0 oc cc k m1 ≤ m1 := by
  intro k
  induction k with
  | zero => intro m1; exact Nat.le_refl _
  | succ k ih =>
    intro m1
    simp only [balLoop]
    split
    · exact Nat.le_trans (ih _) (balStep_le line m1 oc cc)
    · exact Nat.le_refl _

theorem trimEarlyClose_le (line : Str) (m0 m1 : Nat) (oc cc : Char) :
    trimEarlyClose line m0 m1 oc cc ≤ m1 := by
  simp only [trimEarlyClose]
  split
  · rename_i i j hi hj
    split
    · have h1 := findIdx?_lt_len (· == cc) _ _ _ hi
      have h2 : (sliceWord line m0 m1).length = (line.take m1).length - m0 := by
        simp [sliceWord]
      have h3 : (line.take m1).length ≤ m1 := List.length_take_le m1 line
      omega
    · exact Nat.le_refl _
  · exact Nat.le_refl _

theorem urlTrim_le (line : Str) (m0 m1 : Nat) : urlTrim line m0 m1 ≤ m1 := by
  unfold urlTrim
  refine Nat.le_trans (balLoop_le _ _ _ _ _ _) ?_
  refine Nat.le_trans (balLoop_le _ _ _ _ _ _) ?_
  exact Nat.le_trans (trimEarlyClose_le _ _ _ _ _) (trimEarlyClose_le _ _ _ _ _)

theorem takeWhile_ne_nil_head (p : Char → Bool) (l : Str)
    (h : (l.takeWhile p).length ≠ 0) :
    ∃ c cs, l = c :: cs ∧ p c = true := by
  cases l with
  | nil => simp [List.takeWhile] at h
  | cons c cs =>
    refine ⟨c, cs, rfl, ?_⟩
    by_contra hc
    simp only [Bool.not_eq_true] at hc
    simp [List.takeWhile_cons, hc] at h

theorem takeWhile_self_append_drop (p : Char → Bool) (t : Str) :
    t = t.takeWhile p ++ t.drop (t.takeWhile p).length := by
  obtain ⟨u, hu⟩ := List.takeWhile_prefix (p := p) (l := t)
  have hd := List.drop_left (t.takeWhile p) u
  rw [hu] at hd
  rw [hd]
  exact hu.symm

theorem rfcLen_take_shape (s : Str) (n : Nat) (h : rfcLen s = some n) :
    ∃ sp rest, s.take n = 'R' :: 'F' :: 'C' :: (sp ++ rest) ∧ sp ≠ [] ∧
      (∀ c ∈ sp, isGoSpace c = true) ∧ ∃ d ds, rest = d :: ds ∧ isDigit d = true := by
  unfold rfcLen at h
  split at h
  case h_2 => exact absurd h (by simp)
  case h_1 t =>
    unfold rfcAfterRFC at h
    split at h
    case isTrue => exact absurd h (by simp)
    case isFalse hws =>
      unfold rfcDigitsPart at h
      split at h
      case isTrue => exact absurd h (by simp)
      case isFalse hds =>
        simp only [Option.some.injEq] at h
        have ht := takeWhile_self_append_drop isGoSpace t
        set A := t.takeWhile isGoSpace with hA
        set R := t.drop A.length with hR
        have hws2 : A.length ≠ 0 := by simpa using hws
        have hds2 : 3 ≤ (R.takeWhile isDigit).length := by omega
        set K := min (R.takeWhile isDigit).length 5 +
          rfcSectionLen (R.drop (min (R.takeWhile isDigit).length 5)) with hK
        obtain ⟨d, rest2x, hr2, hdd⟩ := takeWhile_ne_nil_head isDigit R (by omega)
        refine ⟨A, R.take K, ?_, ?_, ?_, ?_⟩
        · rw [show n = ((A.length + K + 1) + 1) + 1 from by omega]
          simp only [List.take_succ_cons]
          rw [ht, List.take_append]
        · intro hnil
          rw [hnil] at hws2
          simp at hws2
        · intro c hc
          rw [hA] at hc
          exact List.mem_takeWhile_imp hc
        · have hK1 : 1 ≤ K := by omega
          obtain ⟨k, hk⟩ : ∃ k, K = k + 1 := ⟨K - 1, by omega⟩
          rw [hr2, hk]
          simp only [List.take_succ_cons]
          exact ⟨d, rest2x.take k, rfl, hdd⟩

/-- C2 (amended; the claim's boundary sets each omit `']'`, which the code's
sets contain, and the "character immediately before the match" is in fact the
tracked boundary state `lastChar`, which is updated only by non-matched
segments and therefore survives back-to-back matches unchanged):
a matched identifier is delegated to the resolver only when, at the emitting
iteration, the tracked previous-boundary character is in `validBeforeChars`
(the Go string `"\x00 \t()[]*\n"`), the character immediately after the
match is in `validAfterChars` (the Go string `"\x00 \t()[]:;,.'\n"`), and
the running quote count is even (and hotlinking is enabled with a resolver
present); the first conjunct ties the instrumented loop to `formatLineLoop`.
-/
theorem identifier_linking_guard :
    (∀ (dh hi : Bool) (fuel : Nat) (line : Str) (lastC : Char) (nq : Nat),
      formatLineLoop dh hi fuel line lastC nq =
        (formatLineLoopTr dh hi fuel line lastC nq).map Prod.fst) ∧
    (∀ (dh hi : Bool) (fuel : Nat) (line : Str) (lastC : Char) (nq : Nat)
      (w : Str) (a b : Char) (n : Nat),
      (Frag.resolved w, a, b, n) ∈ formatLineLoopTr dh hi fuel line lastC nq →
      validBefore a = true ∧ validAfter b = true ∧ n % 2 = 0 ∧
        dh = false ∧ hi = true) :=
  ⟨fun dh hi => loopTr_proj dh hi, fun dh hi => loopTr_resolved dh hi⟩

/-- C2 witness: on the line `"x Foo"`, the identifier `Foo` is delegated to
the resolver at the state (previous boundary `' '`, next `NUL`, quote count
0), and the theorem discharges on that concrete membership. -/
theorem identifier_linking_guard_witness :
    validBefore ' ' = true ∧ validAfter '\x00' = true ∧ 0 % 2 = 0 ∧
      false = false ∧ true = true :=
  identifier_linking_guard.2 false true 6 (("x Foo").toList) '\x00' 0
    (("Foo").toList) ' ' '\x00' 0 (by decide)

/-- C2 counterexample: on the line `"]Foo"` the character immediately before
the matched identifier `Foo` is `']'`, which is not in the claim's stated
prefix set, yet the code delegates `Foo` to the resolver rather than
escaping it (the code's own prefix set does contain `']'`). -/
theorem identifier_linking_guard_cex :
    formatLineHTML false true (("]Foo").toList) =
      [Frag.escaped (("]").toList), Frag.resolved (("Foo").toList)] ∧
    claimedBeforeChars.contains ']' = false ∧
    validBeforeChars.contains ']' = true := by
  refine ⟨by decide, by decide, by decide⟩

/-- C3: URL trimming of the two inputs named by the claim behaves as stated
(`"(http://example.com/foo))."` links `http://example.com/foo`, dropping the
unmatched trailing brackets and punctuation; `"[http://example.com/a]"`
links the whole URL inside the brackets), the emitted link's href equals its
text, and the bounded correction never widens a match (`urlTrim ≤ m1`, with
at most 10 iterations per bracket type built into `balLoop`). -/
theorem url_trimming :
    formatLineHTML false true (("(http://example.com/foo)).").toList) =
      [Frag.escaped (("(").toList),
       Frag.link (("http://example.com/foo").toList) (("http://example.com/foo").toList),
       Frag.escaped ((")).").toList)] ∧
    formatLineHTML false true (("[http://example.com/a]").toList) =
      [Frag.escaped (("[").toList),
       Frag.link (("http://example.com/a").toList) (("http://example.com/a").toList),
       Frag.escaped (("]").toList)] ∧
    (∀ (line : Str) (m0 m1 : Nat), urlTrim line m0 m1 ≤ m1) := by
  refine ⟨by decide, by decide, fun line m0 m1 => urlTrim_le line m0 m1⟩

/-- C4: every word matched by the RFC alternative yields at least two
letter/digit/dot fields, so the RFC case always emits exactly one link
(never plain text): with at least 4 fields the link targets
`rfc<N>.html#section-<M>`, otherwise `rfc<N>.html`; and the two inputs
named by the claim produce exactly those links. -/
theorem rfc_linking :
    (∀ (s : Str) (n : Nat), rfcLen s = some n →
      2 ≤ (fieldsOf (s.take n)).length ∧
      ∃ href, rfcFrags (s.take n) = [Frag.link href (s.take n)] ∧
        (4 ≤ (fieldsOf (s.take n)).length →
          href = rfcBase ++ (fieldsOf (s.take n)).getD 1 [] ++
            (".html#section-").toList ++ (fieldsOf (s.take n)).getD 3 []) ∧
        ((fieldsOf (s.take n)).length < 4 →
          href = rfcBase ++ (fieldsOf (s.take n)).getD 1 [] ++ (".html").toList)) ∧
    formatLineHTML false true (("RFC 2616, Section 3").toList) =
      [Frag.link (("https://rfc-editor.org/rfc/rfc2616.html#section-3").toList)
        (("RFC 2616, Section 3").toList)] ∧
    formatLineHTML false true (("RFC 2616").toList) =
      [Frag.link (("https://rfc-editor.org/rfc/rfc2616.html").toList)
        (("RFC 2616").toList)] := by
  refine ⟨?_, by decide, by decide⟩
  intro s n h
  obtain ⟨sp, rest, hshape, hsp, hspc, d, ds, hrest, hd⟩ := rfcLen_take_shape s n h
  have h2 : 2 ≤ (fieldsOf (s.take n)).length := by
    rw [hshape]
    exact fields_rfc_ge_two sp rest hsp hspc d ds hrest hd
  refine ⟨h2, ?_⟩
  by_cases h4 : 4 ≤ (fieldsOf (s.take n)).length
  · refine ⟨_, ?_, fun _ => rfl, fun hlt => absurd h4 (by omega)⟩
    simp only [rfcFrags, ge_iff_le, h4, if_true]
  · refine ⟨_, ?_, fun hge => absurd hge h4, fun _ => rfl⟩
    simp only [rfcFrags, ge_iff_le]
    rw [if_neg h4, if_pos h2]

/-- C4 witness: the universal part applied to the concrete matched text
`"RFC 2616"` (a full match of length 8). -/
theorem rfc_linking_witness :
    2 ≤ (fieldsOf ((("RFC 2616").toList).take 8)).length ∧
    ∃ href, rfcFrags ((("RFC 2616").toList).take 8) =
        [Frag.link href ((("RFC 2616").toList).take 8)] ∧
      (4 ≤ (fieldsOf ((("RFC 2616").toList).take 8)).length →
        href = rfcBase ++ (fieldsOf ((("RFC 2616").toList).take 8)).getD 1 [] ++
          (".html#section-").toList ++ (fieldsOf ((("RFC 2616").toList).take 8)).getD 3 []) ∧
      ((fieldsOf ((("RFC 2616").toList).take 8)).length < 4 →
        href = rfcBase ++ (fieldsOf ((("RFC 2616").toList).take 8)).getD 1 [] ++
          (".html").toList) :=
  rfc_linking.1 (("RFC 2616").toList) 8 (by decide)

theorem getD_set_self' {α : Type} (l : List (List α)) (k : Nat) (v : List α)
    (h : k < l.length) : (l.set k v).getD k [] = v := by
  simp [List.getD, List.getElem?_set, h]

theorem getD_set_ne' {α : Type} (l : List (List α)) (k i : Nat) (v : List α)
    (h : k ≠ i) : (l.set i v).getD k [] = l.getD k [] := by
  simp [List.getD, List.getElem?_set, Ne.symm h]

theorem hoistTarget_le (types : List Nat) : ∀ i, hoistTarget types i ≤ i := by
  intro i
  induction i with
  | zero => exact Nat.le_refl _
  | succ j ih =>
    simp only [hoistTarget]
    split
    · omega
    · exact Nat.le_refl _

theorem hoistTarget_run (types : List Nat) :
    ∀ i k, hoistTarget types i ≤ k → k < i → types.getD k 0 = commentType := by
  intro i
  induction i with
  | zero => intro k h1 h2; omega
  | succ j ih =>
    intro k h1 h2
    simp only [hoistTarget] at h1
    split at h1
    · rename_i ht
      by_cases hk : k = j
      · subst hk
        simpa using ht
      · exact ih k h1 (by omega)
    · omega

theorem hoist_loop_invariant {α : Type} (types : List Nat) (als : List (List α))
    (honly : ∀ k, k < als.length → als.getD k [] ≠ [] → types.getD k 0 ≠ commentType) :
    ∀ m, m ≤ als.length →
      ((List.range m).foldl (hoistStep types) als).length = als.length ∧
      (∀ k, m ≤ k → ((List.range m).foldl (hoistStep types) als).getD k [] = als.getD k []) ∧
      (∀ k, k < m → ((List.range m).foldl (hoistStep types) als).getD k [] = als.getD k [] ∨
        ((List.range m).foldl (hoistStep types) als).getD k [] = [] ∨
        (∃ i, i < m ∧ als.getD i [] ≠ [] ∧ nextEmptyA als i ∧ hoistTarget types i = k ∧
          ((List.range m).foldl (hoistStep types) als).getD k [] = als.getD i [])) ∧
      (∀ i, i < m → als.getD i [] ≠ [] →
        (nextEmptyA als i →
          ((List.range m).foldl (hoistStep types) als).getD (hoistTarget types i) [] =
            als.getD i [] ∧
          (hoistTarget types i ≠ i →
            ((List.range m).foldl (hoistStep types) als).getD i [] = [])) ∧
        (¬ nextEmptyA als i →
          ((List.range m).foldl (hoistStep types) als).getD i [] = als.getD i [])) := by
  intro m
  induction m with
  | zero =>
    intro _
    refine ⟨rfl, fun k _ => rfl, fun k hk => absurd hk (by omega), fun i hi => absurd hi (by omega)⟩
  | succ m ih =>
    intro hm1
    have hmn : m < als.length := by omega
    obtain ⟨ihL, ihA, ihC, ihD⟩ := ih (by omega)
    set st := (List.range m).foldl (hoistStep types) als with hst
    have hfold : (List.range (m + 1)).foldl (hoistStep types) als = hoistStep types st m := by
      rw [List.range_succ, List.foldl_append]
      rfl
    have hcond : (m + 1 = st.length ∨ (st.getD (m + 1) []).length = 0) ↔ nextEmptyA als m := by
      rw [ihL, ihA (m + 1) (by omega)]
      unfold nextEmptyA
      rw [List.length_eq_zero]
    by_cases hne : nextEmptyA als m
    · -- swap case
      have hstep : hoistStep types st m =
          (st.set m (st.getD (hoistTarget types m) [])).set (hoistTarget types m)
            (st.getD m []) := by
        unfold hoistStep
        rw [if_pos (hcond.mpr hne)]
      have hj_le : hoistTarget types m ≤ m := hoistTarget_le types m
      have hj_lt : hoistTarget types m < als.length := by omega
      have hstm : st.getD m [] = als.getD m [] := ihA m (Nat.le_refl _)
      have hb : hoistTarget types m < m → st.getD (hoistTarget types m) [] = [] := by
        intro hjm
        rcases ihC (hoistTarget types m) hjm with hc1 | hc2 | ⟨i0, hi0m, hi0ne, _, hi0t, hc3⟩
        · have htj : types.getD (hoistTarget types m) 0 = commentType :=
            hoistTarget_run types m (hoistTarget types m) (Nat.le_refl _) hjm
          have hals : als.getD (hoistTarget types m) [] = [] := by
            by_contra hne2
            exact honly (hoistTarget types m) hj_lt hne2 htj
          rw [hc1, hals]
        · exact hc2
        · have hji0 : hoistTarget types m ≤ i0 := hi0t ▸ hoistTarget_le types i0
          have hti0 : types.getD i0 0 = commentType :=
            hoistTarget_run types m i0 hji0 hi0m
          exact absurd hti0 (honly i0 (by omega) hi0ne)
      have hlenst' : (hoistStep types st m).length = als.length := by
        rw [hstep]
        simp [List.length_set, ihL]
      have hst'_j : (hoistStep types st m).getD (hoistTarget types m) [] = als.getD m [] := by
        rw [hstep, getD_set_self' _ _ _ (by simp [List.length_set, ihL]; omega)]
        exact hstm
      have hst'_m : hoistTarget types m ≠ m →
          (hoistStep types st m).getD m [] = st.getD (hoistTarget types m) [] := by
        intro hne'
        rw [hstep, getD_set_ne' _ _ _ _ (Ne.symm hne'),
          getD_set_self' _ _ _ (by rw [ihL]; omega)]
      have hst'_other : ∀ k, k ≠ m → k ≠ hoistTarget types m →
          (hoistStep types st m).getD k [] = st.getD k [] := by
        intro k h1 h2
        rw [hstep, getD_set_ne' _ _ _ _ h2, getD_set_ne' _ _ _ _ h1]
      rw [hfold]
      refine ⟨hlenst', ?_, ?_, ?_⟩
      · intro k hk
        rw [hst'_other k (by omega) (by omega)]
        exact ihA k (by omega)
      · intro k hk
        by_cases hkj : k = hoistTarget types m
        · subst hkj
          by_cases hme : als.getD m [] = []
          · exact Or.inr (Or.inl (by rw [hst'_j, hme]))
          · exact Or.inr (Or.inr ⟨m, by omega, hme, hne, rfl, hst'_j⟩)
        · by_cases hkm : k = m
          · have hkj' : hoistTarget types m ≠ m := fun he => hkj (hkm.trans he.symm)
            have hjm : hoistTarget types m < m := by
              have := hoistTarget_le types m
              omega
            rw [hkm]
            exact Or.inr (Or.inl (by rw [hst'_m hkj', hb hjm]))
          · have hkm' : k < m := by omega
            rw [hst'_other k hkm hkj]
            rcases ihC k hkm' with h | h | ⟨i0, hi0⟩
            · exact Or.inl h
            · exact Or.inr (Or.inl h)
            · exact Or.inr (Or.inr ⟨i0, by omega, hi0.2.1, hi0.2.2.1, hi0.2.2.2.1, hi0.2.2.2.2⟩)
      · intro i hi hine
        by_cases him : i = m
        · rw [him]
          refine ⟨fun _ => ⟨hst'_j, fun hti => ?_⟩, fun hnn => absurd hne hnn⟩
          have hle := hoistTarget_le types m
          have hjm : hoistTarget types m < m := by omega
          rw [hst'_m hti, hb hjm]
        · have him' : i < m := by omega
          have hij : i ≠ hoistTarget types m := by
            intro he
            have hrun : types.getD i 0 = commentType :=
              hoistTarget_run types m i (by omega) him'
            exact honly i (by omega) hine hrun
          obtain ⟨oldNE, oldNNE⟩ := ihD i him' hine
          constructor
          · intro hnei
            obtain ⟨o1, o2⟩ := oldNE hnei
            have hti_ne_m : hoistTarget types i ≠ m := by
              have := hoistTarget_le types i
              omega
            have hti_ne_j : hoistTarget types i ≠ hoistTarget types m := by
              intro he
              by_cases hjm : hoistTarget types m < m
              · rw [he] at o1
                rw [hb hjm] at o1
                exact hine o1.symm
              · have : hoistTarget types m = m := by omega
                rw [this] at he
                have := hoistTarget_le types i
                omega
            refine ⟨by rw [hst'_other _ hti_ne_m hti_ne_j]; exact o1, fun hti => ?_⟩
            rw [hst'_other i him hij]
            exact o2 hti
          · intro hnnei
            rw [hst'_other i him hij]
            exact oldNNE hnnei
    · -- no-op case
      have hstep : hoistStep types st m = st := by
        unfold hoistStep
        rw [if_neg (fun hc => hne (hcond.mp hc))]
      rw [hfold, hstep]
      refine ⟨ihL, ?_, ?_, ?_⟩
      · intro k hk
        exact ihA k (by omega)
      · intro k hk
        by_cases hkm : k = m
        · rw [hkm]
          exact Or.inl (ihA m (Nat.le_refl _))
        · rcases ihC k (by omega) with h | h | ⟨i0, hi0⟩
          · exact Or.inl h
          · exact Or.inr (Or.inl h)
          · exact Or.inr (Or.inr ⟨i0, by omega, hi0.2.1, hi0.2.2.1, hi0.2.2.2.1, hi0.2.2.2.2⟩)
      · intro i hi hine
        by_cases him : i = m
        · rw [him]
          exact ⟨fun h => absurd h hne, fun _ => ihA m (Nat.le_refl _)⟩
        · exact ihD i (by omega) hine

/-- C5: in the anchor-hoist pass, under the invariant established by the
token scan (anchors only ever sit on lines whose type is not pure-comment),
every line `i` carrying anchors whose next line carries no anchors (or which
is the last line) has its anchors moved to `hoistTarget i`, the first line
of the immediately preceding maximal run of pure comment lines (leaving
line `i` empty when the target differs), and every other line carrying
anchors keeps them in place. -/
theorem anchor_hoisting {α : Type} (types : List Nat) (als : List (List α))
    (honly : ∀ k, k < als.length → als.getD k [] ≠ [] → types.getD k 0 ≠ commentType) :
    ∀ i, i < als.length → als.getD i [] ≠ [] →
      (nextEmptyA als i →
        (hoist types als).getD (hoistTarget types i) [] = als.getD i [] ∧
        (hoistTarget types i ≠ i → (hoist types als).getD i [] = [])) ∧
      (¬ nextEmptyA als i →
        (hoist types als).getD i [] = als.getD i []) := by
  intro i hi hine
  exact (hoist_loop_invariant types als honly als.length (Nat.le_refl _)).2.2.2 i hi hine

/-- C5 witness: a two-line declaration whose first line is a pure doc
comment and whose second (last) line holds one anchor; the anchor is
hoisted to the first line of the comment run, line 0. -/
theorem anchor_hoisting_witness :
    (hoist [2, 1] ([[], [5]] : List (List Nat))).getD (hoistTarget [2, 1] 1) [] =
      ([[], [5]] : List (List Nat)).getD 1 [] ∧
    (hoistTarget [2, 1] 1 ≠ 1 → (hoist [2, 1] ([[], [5]] : List (List Nat))).getD 1 [] = []) :=
  (anchor_hoisting [2, 1] ([[], [5]] : List (List Nat)) (by decide) 1 (by decide)
    (by decide)).1 (Or.inl (by decide))

theorem rewriteLongValue_idem (maxS maxE : Int) (hS : 0 ≤ maxS) (hE : 0 ≤ maxE) (e : Expr) :
    rewriteLongValue maxS maxE (rewriteLongValue maxS maxE e).1 =
      ((rewriteLongValue maxS maxE e).1, []) := by
  cases e with
  | ident n => rfl
  | selector x s => rfl
  | basicLit isStr v =>
    cases isStr with
    | false => simp [rewriteLongValue]
    | true =>
      simp only [rewriteLongValue, Bool.not_true, Bool.false_eq_true, if_false]
      by_cases h1 : (v.length : Int) - 2 ≤ maxS
      · rw [if_pos h1]
        simp only [rewriteLongValue, Bool.not_true, Bool.false_eq_true, if_false]
        rw [if_pos h1]
      · rw [if_neg h1]
        by_cases h0 : v.length = 0
        · exact absurd h1 (by simp [h0]; omega)
        · rw [if_neg h0]
          by_cases hbq : v.headD '"' = '`'
          · rw [if_pos hbq]
            simp only [rewriteLongValue, Bool.not_true, Bool.false_eq_true, if_false]
            rw [if_pos (by simp; omega)]
          · rw [if_neg hbq]
            simp only [rewriteLongValue, Bool.not_true, Bool.false_eq_true, if_false]
            rw [if_pos (by simp; omega)]
  | compositeLit ty es =>
    simp only [rewriteLongValue]
    by_cases h1 : (es.length : Int) > maxE
    · rw [if_pos h1]
      simp only [rewriteLongValue]
      rw [if_neg (by simp [ExprList.length]; omega)]
    · rw [if_neg h1]
      simp only [rewriteLongValue]
      rw [if_neg h1]

theorem rewriteValues_idem (maxS maxE : Int) (hS : 0 ≤ maxS) (hE : 0 ≤ maxE) :
    ∀ l : List Expr, rewriteValues maxS maxE (rewriteValues maxS maxE l).1 =
      ((rewriteValues maxS maxE l).1, []) := by
  intro l
  induction l with
  | nil => rfl
  | cons v vs ih =>
    simp only [rewriteValues]
    rw [rewriteLongValue_idem maxS maxE hS hE v]
    simp only [rewriteValues] at ih
    rw [ih]
    simp

theorem rewriteField_idem (maxS maxE : Int) (hS : 0 ≤ maxS) (hE : 0 ≤ maxE) (f : Field) :
    rewriteField maxS maxE (rewriteField maxS maxE f) = rewriteField maxS maxE f := by
  cases f with
  | mk names ftype tag comment =>
    cases tag with
    | none => rfl
    | some t =>
      simp only [rewriteField]
      rw [rewriteLongValue_idem maxS maxE hS hE t]
      simp

theorem rewriteSpec_idem (maxS maxE : Int) (hS : 0 ≤ maxS) (hE : 0 ≤ maxE) (sp : Spec) :
    rewriteSpec maxS maxE (rewriteSpec maxS maxE sp) = rewriteSpec maxS maxE sp := by
  cases sp with
  | value vs =>
    simp only [rewriteSpec]
    rw [rewriteValues_idem maxS maxE hS hE vs.values]
    simp
  | typ ts =>
    cases hb : ts.body with
    | structType fs =>
      simp only [rewriteSpec, hb]
      simp only [List.map_map]
      congr 3
      refine List.map_congr_left ?_
      intro x _
      simp only [Function.comp_apply]
      exact rewriteField_idem maxS maxE hS hE x
    | plain e => simp only [rewriteSpec, hb]

/-- C6 (amended; the claim holds for nonnegative thresholds, while a
negative string threshold keeps re-attaching comments): for every
declaration tree and every pair of thresholds with
`0 ≤ maxStringSize` and `0 ≤ maxElements`, applying `rewriteDecl` twice
with those thresholds produces the same tree as applying it once. -/
theorem rewrite_decl_idempotent (maxS maxE : Int) (hS : 0 ≤ maxS) (hE : 0 ≤ maxE) (d : Decl) :
    rewriteDecl maxS maxE (rewriteDecl maxS maxE d) = rewriteDecl maxS maxE d := by
  cases d with
  | mk tok specs =>
    simp only [rewriteDecl, List.map_map]
    congr 1
    refine List.map_congr_left ?_
    intro sp _
    simp only [Function.comp_apply]
    exact rewriteSpec_idem maxS maxE hS hE sp

/-- C6 witness: idempotence at the source's own thresholds (125, 100) on
the concrete 101-element composite declaration. -/
theorem rewrite_decl_idempotent_witness :
    rewriteDecl 125 100 (rewriteDecl 125 100 trimCountDecl) = rewriteDecl 125 100 trimCountDecl :=
  rewrite_decl_idempotent 125 100 (by norm_num) (by norm_num) trimCountDecl

/-- C6 counterexample: with the (admittedly degenerate) threshold pair
`maxStringSize = -1`, `maxElements = 0`, the replacement literal `""` still
has length `0 > -1`, so a second application attaches a second comment and
the tree differs — the claim quantifies over every fixed pair of
thresholds, and Go's `int` admits negative ones. -/
theorem rewrite_decl_idempotent_cex :
    rewriteDecl (-1) 0 (rewriteDecl (-1) 0 trimStrDecl) ≠ rewriteDecl (-1) 0 trimStrDecl := by
  decide

theorem identToks_nil : identToks [] = [] := rfl

theorem identToks_cons_ident (n : Str) (ts : List Tok) :
    identToks (Tok.ident n :: ts) = n :: identToks ts := rfl

theorem identToks_cons_keyword (s : Str) (ts : List Tok) :
    identToks (Tok.keyword s :: ts) = identToks ts := rfl

theorem identToks_cons_op (s : Str) (ts : List Tok) :
    identToks (Tok.op s :: ts) = identToks ts := rfl

theorem identToks_cons_strLit (s : Str) (ts : List Tok) :
    identToks (Tok.strLit s :: ts) = identToks ts := rfl

theorem identToks_cons_numLit (s : Str) (ts : List Tok) :
    identToks (Tok.numLit s :: ts) = identToks ts := rfl

theorem identToks_cons_cmt (s : Str) (ts : List Tok) :
    identToks (Tok.cmt s :: ts) = identToks ts := rfl

theorem identToks_append (a b : List Tok) : identToks (a ++ b) = identToks a ++ identToks b := by
  simp [identToks, List.filterMap_append]

theorem identToks_flatten : ∀ ls : List (List Tok),
    identToks ls.flatten = (ls.map identToks).flatten := by
  intro ls
  induction ls with
  | nil => rfl
  | cons a ls ih => simp [List.flatten_cons, identToks_append, ih]

mutual
theorem identToks_printExpr : ∀ e : Expr, identToks (printExpr e) = exprIdents e
  | .ident n => rfl
  | .selector x s => by
    show identToks (printExpr x ++ [Tok.op ['.'], Tok.ident s]) = exprIdents x ++ [s]
    rw [identToks_append, identToks_printExpr x]
    rfl
  | .basicLit b v => by cases b <;> rfl
  | .compositeLit ty es => by
    show identToks (printExpr ty ++ [Tok.op ['{']] ++ printExprList es ++ [Tok.op ['}']]) =
      exprIdents ty ++ exprListIdents es
    rw [identToks_append, identToks_append, identToks_append,
      identToks_printExpr ty, identToks_printExprList es]
    simp [identToks_cons_op, identToks_nil]
theorem identToks_printExprList : ∀ es : ExprList, identToks (printExprList es) = exprListIdents es
  | .enil => rfl
  | .econs e .enil => by
    show identToks (printExpr e) = exprIdents e ++ exprListIdents ExprList.enil
    rw [identToks_printExpr e]
    simp [exprListIdents]
  | .econs e (.econs e2 es) => by
    show identToks (printExpr e ++ [Tok.op [',']] ++ printExprList (ExprList.econs e2 es)) =
      exprIdents e ++ exprListIdents (ExprList.econs e2 es)
    rw [identToks_append, identToks_append, identToks_printExpr e,
      identToks_printExprList (ExprList.econs e2 es)]
    simp [identToks_cons_op, identToks_nil]
end

theorem identToks_printComments (cs : List Str) : identToks (printComments cs) = [] := by
  induction cs with
  | nil => rfl
  | cons c cs ih =>
    show identToks (Tok.cmt c :: printComments cs) = []
    rw [identToks_cons_cmt, ih]

theorem identToks_commaSepIdents : ∀ ns : List Str, identToks (commaSepIdents ns) = ns := by
  intro ns
  induction ns with
  | nil => rfl
  | cons n ns ih =>
    cases ns with
    | nil => rfl
    | cons n2 ns2 =>
      show identToks (Tok.ident n :: Tok.op [','] :: commaSepIdents (n2 :: ns2)) = n :: n2 :: ns2
      rw [identToks_cons_ident, identToks_cons_op, ih]

theorem identToks_printTokList : ∀ ls : List (List Tok),
    identToks (printTokList ls) = (ls.map identToks).flatten := by
  intro ls
  induction ls with
  | nil => rfl
  | cons a ls ih =>
    cases ls with
    | nil => simp [printTokList]
    | cons b ls2 =>
      show identToks (a ++ [Tok.op [',']] ++ printTokList (b :: ls2)) = _
      rw [identToks_append, identToks_append, ih]
      simp [identToks_cons_op, identToks_nil]

theorem identToks_optExpr : ∀ o : Option Expr,
    identToks (match o with | some t => printExpr t | none => []) = optIdents o := by
  intro o
  cases o with
  | none => rfl
  | some t => simp only [optIdents]; exact identToks_printExpr t

theorem identToks_printField (f : Field) : identToks (printField f) = fieldIdents f := by
  show identToks (commaSepIdents f.names ++ printExpr f.ftype ++
    (match f.tag with | some t => printExpr t | none => []) ++
    printComments f.comment ++ [Tok.op [';']]) = _
  rw [identToks_append, identToks_append, identToks_append, identToks_append,
    identToks_commaSepIdents, identToks_printExpr f.ftype, identToks_optExpr f.tag,
    identToks_printComments]
  simp [fieldIdents, identToks_cons_op, identToks_nil]

theorem identToks_printSpec : ∀ sp : Spec, identToks (printSpec sp) = specIdents sp := by
  intro sp
  cases sp with
  | value vs =>
    show identToks (commaSepIdents vs.names ++
      (match vs.vtype with | some t => printExpr t | none => []) ++
      (if vs.values.isEmpty then [] else [Tok.op ['=']]) ++
      printTokList (vs.values.map printExpr) ++
      printComments vs.comment ++ [Tok.op [';']]) = _
    rw [identToks_append, identToks_append, identToks_append, identToks_append,
      identToks_append, identToks_commaSepIdents, identToks_optExpr vs.vtype,
      identToks_printTokList, identToks_printComments]
    have heq : identToks (if vs.values.isEmpty then [] else [Tok.op ['=']]) = [] := by
      split <;> rfl
    rw [heq]
    simp only [specIdents, List.map_map, identToks_cons_op, identToks_nil,
      List.append_nil, List.append_assoc, List.nil_append]
    congr 2
    exact congrArg List.flatten
      (List.map_congr_left (fun e _ => identToks_printExpr e))
  | typ ts =>
    obtain ⟨tn, body⟩ := ts
    cases body with
    | structType fs =>
      show identToks (Tok.ident tn ::
        ((Tok.keyword (("struct").toList) :: Tok.op ['{'] ::
          ((fs.map printField).flatten ++ [Tok.op ['}']])) ++ [Tok.op [';']])) = _
      rw [identToks_cons_ident]
      rw [identToks_append, identToks_cons_keyword, identToks_cons_op,
        identToks_append, identToks_flatten]
      simp only [specIdents, List.map_map, identToks_cons_op, identToks_nil,
        List.append_nil]
      congr 1
      refine congrArg _ ?_
      refine List.map_congr_left ?_
      intro f _
      exact identToks_printField f
    | plain e =>
      show identToks (Tok.ident tn :: (printExpr e ++ [Tok.op [';']])) = _
      rw [identToks_cons_ident, identToks_append, identToks_printExpr e]
      simp [specIdents, identToks_cons_op, identToks_nil]

theorem identToks_printDecl (d : Decl) : identToks (printDecl d) = declIdents d := by
  cases d with
  | mk tok specs =>
    show identToks (Tok.keyword _ :: Tok.op ['('] :: ((specs.map printSpec).flatten ++ [Tok.op [')']])) = _
    rw [identToks_cons_keyword, identToks_cons_op, identToks_append, identToks_flatten]
    simp only [declIdents, List.map_map, identToks_cons_op, identToks_nil, List.append_nil]
    congr 1
    refine List.map_congr_left ?_
    intro sp _
    exact identToks_printSpec sp

theorem isIdentStart_not_ws {c : Char} (h : isIdentStart c = true) :
    (c == ' ' || c == '\n' || c == '\t') = false := by
  rcases Bool.eq_false_or_eq_true (c == ' ' || c == '\n' || c == '\t') with hb | hb
  · exfalso
    simp only [Bool.or_eq_true, beq_iff_eq] at hb
    rcases hb with (rfl | rfl) | rfl <;> exact absurd h (by decide)
  · exact hb

theorem isDigit_not_ws {c : Char} (h : isDigit c = true) :
    (c == ' ' || c == '\n' || c == '\t') = false := by
  rcases Bool.eq_false_or_eq_true (c == ' ' || c == '\n' || c == '\t') with hb | hb
  · exfalso
    simp only [Bool.or_eq_true, beq_iff_eq] at hb
    rcases hb with (rfl | rfl) | rfl <;> exact absurd h (by decide)
  · exact hb

theorem isDigit_not_identStart {c : Char} (h : isDigit c = true) : isIdentStart c = false := by
  simp only [isDigit, Bool.and_eq_true, decide_eq_true_eq] at h
  obtain ⟨h1, h2⟩ := h
  rcases Bool.eq_false_or_eq_true (isIdentStart c) with hb | hb
  · exfalso
    simp only [isIdentStart, Bool.or_eq_true, beq_iff_eq] at hb
    rcases hb with hl | rfl
    · simp only [isLetter, Bool.or_eq_true, Bool.and_eq_true, decide_eq_true_eq] at hl
      rcases hl with ⟨ha, _⟩ | ⟨ha, _⟩ <;> exact absurd (le_trans ha h2) (by decide)
    · exact absurd h2 (by decide)
  · exact hb

theorem takeWhile_append_stop (p : Char → Bool) :
    ∀ (xs : Str) (y : Char) (ys : Str), (∀ x ∈ xs, p x = true) → p y = false →
      (xs ++ y :: ys).takeWhile p = xs ∧ (xs ++ y :: ys).dropWhile p = y :: ys := by
  intro xs
  induction xs with
  | nil =>
    intro y ys _ hy
    simp [List.takeWhile_cons, List.dropWhile_cons, hy]
  | cons a xs ih =>
    intro y ys hall hy
    have ha : p a = true := hall a (by simp)
    have hr := ih y ys (fun x hx => hall x (by simp [hx])) hy
    simp [List.takeWhile_cons, List.dropWhile_cons, ha, hr.1, hr.2]

theorem drop_len_succ (xs : Str) (y : Char) (ys : Str) :
    (xs ++ y :: ys).drop (xs.length + 1) = ys := by
  induction xs with
  | nil => simp
  | cons a xs ih => simp [ih]

theorem cmtEnd_extend : ∀ (l t : Str) (k : Nat), cmtEnd l = some k → cmtEnd (l ++ t) = some k := by
  intro l
  induction l with
  | nil => intro t k h; simp [cmtEnd] at h
  | cons c cs ih =>
    intro t k h
    cases cs with
    | nil => simp [cmtEnd] at h
    | cons c2 cs2 =>
      simp only [cmtEnd, List.cons_append, List.append_eq] at h ⊢
      split at h
      · rename_i hcc
        rw [if_pos hcc]
        exact h
      · rename_i hcc
        rw [if_neg hcc]
        cases hh : cmtEnd (c2 :: cs2) with
        | none => rw [hh] at h; simp at h
        | some k2 =>
          rw [hh] at h
          have hih := ih t k2 hh
          simp only [List.cons_append, List.append_eq] at hih
          rw [hih]
          simpa using h

theorem wfStrTail_decomp (q : Char) : ∀ l, wfStrTail q l = true →
    ∃ body, l = body ++ [q] ∧ ∀ x ∈ body, (x == q) = false := by
  intro l
  induction l with
  | nil => intro h; simp [wfStrTail] at h
  | cons c cs ih =>
    intro h
    cases cs with
    | nil =>
      refine ⟨[], ?_, by simp⟩
      have : c = q := by simpa [wfStrTail] using h
      simp [this]
    | cons c2 cs2 =>
      simp only [wfStrTail, Bool.and_eq_true, Bool.not_eq_true'] at h
      obtain ⟨body, hb, hbq⟩ := ih h.2
      refine ⟨c :: body, by simp [hb], ?_⟩
      intro x hx
      rcases List.mem_cons.mp hx with rfl | hx2
      · simp [h.1]
      · exact hbq x hx2

theorem keyword_wfName {k : Str} (h : goKeywords.contains k = true) : wfName k = true := by
  have hm : k ∈ goKeywords := by simp at h; exact h
  simp only [goKeywords, List.mem_cons, List.not_mem_nil, or_false] at hm
  rcases hm with rfl | rfl | rfl | rfl <;> decide

theorem scanToksF_space_skip (f : Nat) (rest : Str) :
    scanToksF (f + 1) (' ' :: rest) = scanToksF f rest := by
  simp [scanToksF]

theorem scan_step_word (n : Str) (hn : wfName n = true) (rest : Str) (f : Nat) :
    scanToksF (f + 2) (n ++ ' ' :: rest) =
      (if goKeywords.contains n then Tok.keyword n else Tok.ident n) :: scanToksF f rest := by
  obtain ⟨c, cs, rfl⟩ : ∃ c cs, n = c :: cs := by
    cases n with
    | nil => simp [wfName] at hn
    | cons a b => exact ⟨a, b, rfl⟩
  simp only [wfName, Bool.and_eq_true] at hn
  obtain ⟨h1, h2⟩ := hn
  have hall : ∀ x ∈ cs, isIdentPart x = true := by
    intro x hx
    exact List.all_eq_true.mp h2 x hx
  have hstop := takeWhile_append_stop isIdentPart cs ' ' rest hall (by decide)
  show scanToksF (f + 2) (c :: (cs ++ ' ' :: rest)) = _
  simp only [scanToksF, isIdentStart_not_ws h1, h1, hstop.1, hstop.2,
    Bool.false_eq_true, if_false, if_true]
  simp

theorem scan_step_num (n : Str) (hn : wfTok (Tok.numLit n) = true) (rest : Str) (f : Nat) :
    scanToksF (f + 2) (n ++ ' ' :: rest) = Tok.numLit n :: scanToksF f rest := by
  obtain ⟨c, cs, rfl⟩ : ∃ c cs, n = c :: cs := by
    cases n with
    | nil => simp [wfTok] at hn
    | cons a b => exact ⟨a, b, rfl⟩
  simp only [wfTok, Bool.and_eq_true] at hn
  obtain ⟨h1, h2⟩ := hn
  have hall : ∀ x ∈ cs, isDigit x = true := by
    intro x hx
    exact List.all_eq_true.mp h2 x hx
  have hstop := takeWhile_append_stop isDigit cs ' ' rest hall (by decide)
  show scanToksF (f + 2) (c :: (cs ++ ' ' :: rest)) = _
  simp only [scanToksF, isDigit_not_ws h1, isDigit_not_identStart h1, h1, hstop.1, hstop.2,
    Bool.false_eq_true, if_false, if_true]
  simp

theorem scan_step_str (q : Char) (hq : q = '"' ∨ q = '`') (body rest : Str)
    (hb : ∀ x ∈ body, (x == q) = false) (f : Nat) :
    scanToksF (f + 2) ((q :: body ++ [q]) ++ ' ' :: rest) =
      Tok.strLit (q :: body ++ [q]) :: scanToksF f rest := by
  have hsh : (q :: body ++ [q]) ++ ' ' :: rest = q :: (body ++ q :: ' ' :: rest) := by simp
  rw [hsh]
  have hall : ∀ x ∈ body, (fun x => !(x == q)) x = true := by
    intro x hx
    simp [hb x hx]
  have hstop := takeWhile_append_stop (fun x => !(x == q)) body q (' ' :: rest) hall (by simp)
  rcases hq with rfl | rfl
  · simp only [scanToksF, show (('"' : Char) == ' ' || ('"' : Char) == '\n' ||
      ('"' : Char) == '\t') = false from rfl,
      show isIdentStart '"' = false from rfl, show isDigit '"' = false from rfl,
      show (('"' : Char) == '"') = true from rfl,
      Bool.false_eq_true, if_false, if_true, hstop.1, hstop.2]
    rw [drop_len_succ body '"' (' ' :: rest)]
    simp
    exact scanToksF_space_skip f rest
  · simp only [scanToksF, show (('`' : Char) == ' ' || ('`' : Char) == '\n' ||
      ('`' : Char) == '\t') = false from rfl,
      show isIdentStart '`' = false from rfl, show isDigit '`' = false from rfl,
      show (('`' : Char) == '"') = false from rfl,
      show (('`' : Char) == '`') = true from rfl,
      Bool.false_eq_true, if_false, if_true, hstop.1, hstop.2]
    rw [drop_len_succ body '`' (' ' :: rest)]
    simp
    exact scanToksF_space_skip f rest

theorem scan_step_cmt (rc rest : Str) (hc : cmtEnd rc = some rc.length) (f : Nat) :
    scanToksF (f + 2) (('/' :: '*' :: rc) ++ ' ' :: rest) =
      Tok.cmt ('/' :: '*' :: rc) :: scanToksF f rest := by
  have hsh : ('/' :: '*' :: rc) ++ ' ' :: rest = '/' :: '*' :: (rc ++ ' ' :: rest) := by simp
  rw [hsh]
  simp only [scanToksF, show (('/' : Char) == ' ' || ('/' : Char) == '\n' ||
      ('/' : Char) == '\t') = false from rfl,
    show isIdentStart '/' = false from rfl, show isDigit '/' = false from rfl,
    show (('/' : Char) == '"') = false from rfl, show (('/' : Char) == '`') = false from rfl,
    show (('/' : Char) == '/') = true from rfl,
    Bool.false_eq_true, if_false, if_true]
  rw [cmtEnd_extend rc (' ' :: rest) rc.length hc]
  show Tok.cmt ('/' :: '*' :: List.take rc.length (rc ++ ' ' :: rest)) ::
      scanToksF (f + 1) (List.drop rc.length (rc ++ ' ' :: rest)) = _
  rw [List.take_left, List.drop_left, scanToksF_space_skip]

theorem scan_step_op (c : Char) (hc : isOpChar c = true) (rest : Str) (f : Nat) :
    scanToksF (f + 2) ([c] ++ ' ' :: rest) = Tok.op [c] :: scanToksF f rest := by
  simp only [isOpChar, Bool.or_eq_true, beq_iff_eq] at hc
  rcases hc with ((((((rfl | rfl) | rfl) | rfl) | rfl) | rfl) | rfl) | rfl <;> rfl

theorem wf_render_len {t : Tok} (h : wfTok t = true) : 1 ≤ (renderTok t).length := by
  cases t with
  | ident n =>
    cases n with
    | nil => simp [wfTok, wfName] at h
    | cons a b => simp [renderTok]
  | keyword k =>
    cases k with
    | nil => exact absurd h (by decide)
    | cons a b => simp [renderTok]
  | op s =>
    cases s with
    | nil => simp [wfTok] at h
    | cons a b => simp [renderTok]
  | strLit s =>
    cases s with
    | nil => simp [wfTok] at h
    | cons a b => simp [renderTok]
  | numLit s =>
    cases s with
    | nil => simp [wfTok] at h
    | cons a b => simp [renderTok]
  | cmt s =>
    cases s with
    | nil => simp [wfTok] at h
    | cons a b => simp [renderTok]

theorem scanToksF_empty (fuel : Nat) : scanToksF fuel [] = [] := by
  cases fuel <;> rfl

theorem scan_render : ∀ (ts : List Tok) (fuel : Nat), (∀ t ∈ ts, wfTok t = true) →
    (renderToks ts).length ≤ fuel → scanToksF fuel (renderToks ts) = ts := by
  intro ts
  induction ts with
  | nil => intro fuel _ _; exact scanToksF_empty fuel
  | cons t ts ih =>
    intro fuel hwf hfuel
    have hwt : wfTok t = true := hwf t (by simp)
    have hlen : 1 ≤ (renderTok t).length := wf_render_len hwt
    have hlen2 : (renderToks (t :: ts)).length =
        (renderTok t).length + 1 + (renderToks ts).length := by
      show (renderTok t ++ ' ' :: renderToks ts).length = _
      simp
      omega
    obtain ⟨f, rfl⟩ : ∃ f, fuel = f + 2 := ⟨fuel - 2, by omega⟩
    have hf : (renderToks ts).length ≤ f := by omega
    have hrest := ih f (fun x hx => hwf x (by simp [hx])) hf
    show scanToksF (f + 2) (renderTok t ++ ' ' :: renderToks ts) = t :: ts
    cases t with
    | ident n =>
      simp only [wfTok, Bool.and_eq_true, Bool.not_eq_true'] at hwt
      rw [show renderTok (Tok.ident n) = n from rfl, scan_step_word n hwt.1 _ f, hwt.2, hrest]
      simp
    | keyword k =>
      have hk : goKeywords.contains k = true := by
        simpa [wfTok] using hwt
      rw [show renderTok (Tok.keyword k) = k from rfl,
        scan_step_word k (keyword_wfName hk) _ f, hk, hrest]
      simp
    | op s =>
      obtain ⟨c, rfl⟩ : ∃ c, s = [c] := by
        cases s with
        | nil => simp [wfTok] at hwt
        | cons a b =>
          cases b with
          | nil => exact ⟨a, rfl⟩
          | cons x y => simp [wfTok] at hwt
      have hc : isOpChar c = true := by simpa [wfTok] using hwt
      rw [show renderTok (Tok.op [c]) = [c] from rfl, scan_step_op c hc _ f, hrest]
    | strLit s =>
      obtain ⟨q, tl, rfl⟩ : ∃ q tl, s = q :: tl := by
        cases s with
        | nil => simp [wfTok] at hwt
        | cons a b => exact ⟨a, b, rfl⟩
      simp only [wfTok, Bool.and_eq_true, Bool.or_eq_true, beq_iff_eq] at hwt
      obtain ⟨hq, htl⟩ := hwt
      obtain ⟨body, rfl, hbody⟩ := wfStrTail_decomp q tl htl
      rw [show renderTok (Tok.strLit (q :: (body ++ [q]))) = q :: (body ++ [q]) from rfl,
        show q :: (body ++ [q]) = q :: body ++ [q] from (List.cons_append q body [q]).symm,
        scan_step_str q hq body (renderToks ts) hbody f, hrest]
    | numLit s =>
      rw [show renderTok (Tok.numLit s) = s from rfl, scan_step_num s hwt _ f, hrest]
    | cmt s =>
      obtain ⟨c1, c2, rc, rfl⟩ : ∃ c1 c2 rc, s = c1 :: c2 :: rc := by
        cases s with
        | nil => simp [wfTok] at hwt
        | cons a b =>
          cases b with
          | nil => simp [wfTok] at hwt
          | cons x y => exact ⟨a, x, y, rfl⟩
      simp only [wfTok, Bool.and_eq_true, beq_iff_eq] at hwt
      obtain ⟨⟨rfl, rfl⟩, hcend⟩ := hwt
      have hcend2 : cmtEnd rc = some rc.length := by
        simpa using hcend
      rw [show renderTok (Tok.cmt ('/' :: '*' :: rc)) = '/' :: '*' :: rc from rfl,
        scan_step_cmt rc (renderToks ts) hcend2 f, hrest]

theorem consumeAnchors_fst {β : Type} (pts : List β) :
    ∀ (ts : List Tok) (k : Nat), (consumeAnchors pts ts k).map Prod.fst = identToks ts := by
  intro ts
  induction ts with
  | nil => intro k; rfl
  | cons t ts ih =>
    intro k
    cases t with
    | ident n => simp [consumeAnchors, identToks_cons_ident, ih]
    | keyword s => simpa [consumeAnchors, identToks_cons_keyword] using ih k
    | op s => simpa [consumeAnchors, identToks_cons_op] using ih k
    | strLit s => simpa [consumeAnchors, identToks_cons_strLit] using ih k
    | numLit s => simpa [consumeAnchors, identToks_cons_numLit] using ih k
    | cmt s => simpa [consumeAnchors, identToks_cons_cmt] using ih k

theorem consumeAnchors_snd {β : Type} (pts : List β) :
    ∀ (ts : List Tok) (k : Nat), (consumeAnchors pts ts k).map Prod.snd =
      (List.range (identToks ts).length).map (fun i => pts.get? (k + i)) := by
  intro ts
  induction ts with
  | nil => intro k; rfl
  | cons t ts ih =>
    intro k
    cases t with
    | ident n =>
      simp only [consumeAnchors, identToks_cons_ident, List.map_cons, List.length_cons,
        List.range_succ_eq_map, List.map_map]
      congr 1
      rw [ih (k + 1)]
      refine List.map_congr_left ?_
      intro i _
      simp only [Function.comp_apply]
      congr 1
      omega
    | keyword s => simpa [consumeAnchors, identToks_cons_keyword] using ih k
    | op s => simpa [consumeAnchors, identToks_cons_op] using ih k
    | strLit s => simpa [consumeAnchors, identToks_cons_strLit] using ih k
    | numLit s => simpa [consumeAnchors, identToks_cons_numLit] using ih k
    | cmt s => simpa [consumeAnchors, identToks_cons_cmt] using ih k

/-- C1 (corrected): for every declaration passed to `formatDeclHTML` and
every pair of trimming thresholds, if every token the modelled printer
emits for the rewritten declaration is well-formed, then re-tokenizing the
reformatted source yields identifier tokens that match, one-for-one and in
left-to-right order, the `*ast.Ident` nodes of the REWRITTEN
(literal-trimmed) syntax tree — not of the original tree, whose traversal
`generateAnchorPoints` walks before `rewriteDecl` trims it — and the
anchor-consumption loop pairs the i-th identifier token with at most one
anchor point, namely the one at index i, in the same left-to-right
order. -/
theorem decl_ident_token_alignment {β : Type} (d : Decl) (maxS maxE : Int)
    (pts : List β)
    (hwf : ∀ t ∈ printDecl (rewriteDecl maxS maxE d), wfTok t = true) :
    identToks (scanToks (renderToks (printDecl (rewriteDecl maxS maxE d)))) =
      declIdents (rewriteDecl maxS maxE d) ∧
    (consumeAnchors pts
        (scanToks (renderToks (printDecl (rewriteDecl maxS maxE d)))) 0).map
      Prod.fst = declIdents (rewriteDecl maxS maxE d) ∧
    (consumeAnchors pts
        (scanToks (renderToks (printDecl (rewriteDecl maxS maxE d)))) 0).map
      Prod.snd =
      (List.range (declIdents (rewriteDecl maxS maxE d)).length).map
        (fun i => pts.get? i) := by
  have hscan : scanToks (renderToks (printDecl (rewriteDecl maxS maxE d))) =
      printDecl (rewriteDecl maxS maxE d) :=
    scan_render _ _ hwf (le_refl _)
  rw [hscan]
  refine ⟨identToks_printDecl _, ?_, ?_⟩
  · rw [consumeAnchors_fst, identToks_printDecl]
  · rw [consumeAnchors_snd, identToks_printDecl]
    simp

/-- Witness for C1: the concrete declaration `var ( V = "a" )` at the
thresholds of the source (125, 100). -/
theorem decl_ident_token_alignment_witness :
    identToks (scanToks (renderToks (printDecl (rewriteDecl 125 100 trimStrDecl)))) =
      declIdents (rewriteDecl 125 100 trimStrDecl) ∧
    (consumeAnchors ([7] : List Nat)
        (scanToks (renderToks (printDecl (rewriteDecl 125 100 trimStrDecl)))) 0).map
      Prod.fst = declIdents (rewriteDecl 125 100 trimStrDecl) ∧
    (consumeAnchors ([7] : List Nat)
        (scanToks (renderToks (printDecl (rewriteDecl 125 100 trimStrDecl)))) 0).map
      Prod.snd =
      (List.range (declIdents (rewriteDecl 125 100 trimStrDecl)).length).map
        (fun i => ([7] : List Nat).get? i) :=
  decl_ident_token_alignment trimStrDecl 125 100 ([7] : List Nat) (by decide)

/-- Counterexample to C1 as stated: for the declaration whose single value
is a composite literal with 101 elements, literal trimming deletes the
elements, so the re-tokenized reformatted source has 2 identifier tokens
while the in-order traversal of the ORIGINAL syntax tree visits 103
`*ast.Ident` nodes. -/
theorem decl_ident_token_alignment_cex :
    (identToks (scanToks (renderToks (printDecl
        (rewriteDecl 125 100 trimCountDecl))))).length ≠
      (declIdents trimCountDecl).length := by
  decide

theorem replIndentF_nil : ∀ (f : Nat) (t : Str), replIndentF f [] t = t := by
  intro f
  induction f with
  | zero => intro t; cases t <;> rfl
  | succ f ih =>
    intro t
    cases t with
    | nil => rfl
    | cons c cs =>
      show (if c = '\n' ∧ List.isPrefixOf [] cs then
          '\n' :: replIndentF f [] (cs.drop 0) else c :: replIndentF f [] cs) = c :: cs
      by_cases hc : c = '\n'
      · rw [if_pos ⟨hc, by simp [List.isPrefixOf]⟩, hc, List.drop_zero, ih]
      · rw [if_neg (fun h => hc h.1), ih]

theorem replIndent_nil (t : Str) : replIndent [] t = t := replIndentF_nil t.length t

theorem exScanF_ne_nil : ∀ (fuel : Nat) (s gap : Str), exScanF fuel s gap ≠ [] := by
  intro fuel
  induction fuel with
  | zero => intro s gap; cases s <;> simp [exScanF]
  | succ f ih =>
    intro s gap
    cases s with
    | nil => simp [exScanF]
    | cons c cs =>
      show (if c = '/' ∧ cs.headD ' ' = '/' then _
        else if c = '/' ∧ cs.headD ' ' = '*' then _
        else if c = '"' ∨ c = '`' then _ else exScanF f cs (c :: gap)) ≠ []
      split
      · simp
      split
      · rcases hce : cmtEnd (cs.drop 1) with _ | n <;> simp [hce]
      split
      · simp
      · exact ih cs (c :: gap)

theorem concatTexts_nil : concatTexts [] = [] := rfl

theorem concatTexts_cons (e : CodeElem) (l : List CodeElem) :
    concatTexts (e :: l) = e.text ++ concatTexts l := by
  simp [concatTexts]

theorem finalTrim_cons₂ (e e2 : CodeElem) (es : List CodeElem) :
    finalTrim (e :: e2 :: es) = e :: finalTrim (e2 :: es) := rfl

theorem trimNlRight_append_ends (X Y Z : Str) (h : endsNonNl Y = true) :
    trimNlRight ((X ++ Y) ++ Z) = (X ++ Y) ++ trimNlRight Z := by
  obtain ⟨c, ys, hy⟩ : ∃ c ys, Y.reverse = c :: ys := by
    unfold endsNonNl at h
    cases hr : Y.reverse with
    | nil => rw [hr] at h; exact absurd h (by simp)
    | cons a b => exact ⟨a, b, rfl⟩
  have hc : ((fun x => x == '\n') c) = false := by
    unfold endsNonNl at h
    rw [hy] at h
    simpa using h
  have hxy : c :: (ys ++ X.reverse) = (X ++ Y).reverse := by
    rw [List.reverse_append, hy]
    simp
  unfold trimNlRight
  rw [List.reverse_append, ← hxy, List.dropWhile_append]
  split
  next hemp =>
    rw [List.dropWhile_cons_of_neg (by simp [hc]), hxy, List.reverse_reverse]
    have hz : List.dropWhile (fun x => x == '\n') Z.reverse = [] := by
      simpa using hemp
    rw [hz]
    simp
  next hemp =>
    rw [hxy, List.reverse_append, List.reverse_reverse, List.append_assoc]

theorem toElems_cons (ind : Str) (sg : Seg) (l : List Seg) :
    toElems ind (sg :: l) =
      CodeElem.mk (segText ind sg) (segIsCmt sg) :: toElems ind l := rfl

theorem exScanF_raw_concat : ∀ (fuel : Nat) (s gap : Str), s.length ≤ fuel →
    ((exScanF fuel s gap).map segRaw).flatten = gap.reverse ++ s := by
  intro fuel
  induction fuel with
  | zero =>
    intro s gap hlen
    have hs : s = [] := by
      cases s with
      | nil => rfl
      | cons a b => simp at hlen
    subst hs
    simp [exScanF, segRaw]
  | succ f ih =>
    intro s gap hlen
    cases s with
    | nil => simp [exScanF, segRaw]
    | cons c cs =>
      by_cases h1 : c = '/' ∧ cs.headD ' ' = '/'
      · obtain ⟨rfl, hh⟩ := h1
        obtain ⟨b, rfl⟩ : ∃ b, cs = '/' :: b := by
          cases cs with
          | nil => exact absurd hh (by simp)
          | cons a b =>
            have ha : a = '/' := by simpa using hh
            exact ⟨b, by rw [ha]⟩
        have heq : exScanF (f + 1) ('/' :: '/' :: b) gap =
            Seg.gap gap.reverse ::
              Seg.cmt ('/' :: '/' :: b.takeWhile (fun x => !(x == '\n'))) ::
              exScanF f (b.dropWhile (fun x => !(x == '\n'))) [] := by
          simp [exScanF]
        have hfb : (b.dropWhile (fun x => !(x == '\n'))).length ≤ f := by
          have h2 := length_dropWhile_le' (fun x => !(x == '\n')) b
          simp at hlen
          omega
        rw [heq]
        simp only [List.map_cons, List.flatten_cons, segRaw]
        rw [ih _ [] hfb]
        simp [List.takeWhile_append_dropWhile]
      · by_cases h2 : c = '/' ∧ cs.headD ' ' = '*'
        · obtain ⟨rfl, hh⟩ := h2
          obtain ⟨b, rfl⟩ : ∃ b, cs = '*' :: b := by
            cases cs with
            | nil => exact absurd hh (by simp)
            | cons a b =>
              have ha : a = '*' := by simpa using hh
              exact ⟨b, by rw [ha]⟩
          cases hce : cmtEnd b with
          | some n =>
            have heq : exScanF (f + 1) ('/' :: '*' :: b) gap =
                Seg.gap gap.reverse :: Seg.cmt ('/' :: '*' :: b.take n) ::
                  exScanF f (b.drop n) [] := by
              simp [exScanF, hce]
            have hfb : (b.drop n).length ≤ f := by
              rw [List.length_drop]
              simp at hlen
              omega
            rw [heq]
            simp only [List.map_cons, List.flatten_cons, segRaw]
            rw [ih _ [] hfb]
            simp [List.take_append_drop]
          | none =>
            have heq : exScanF (f + 1) ('/' :: '*' :: b) gap =
                Seg.gap gap.reverse :: Seg.cmt ('/' :: '*' :: b) ::
                  exScanF f [] [] := by
              simp [exScanF, hce]
            rw [heq]
            simp only [List.map_cons, List.flatten_cons, segRaw]
            rw [ih [] [] (by simp)]
            simp
        · by_cases h3 : c = '"' ∨ c = '`'
          · rcases h3 with rfl | rfl
            · have heq : exScanF (f + 1) ('"' :: cs) gap =
                  Seg.gap gap.reverse ::
                    Seg.strTok ('"' ::
                      cs.take ((cs.takeWhile (fun x => !(x == '"'))).length + 1)) ::
                    exScanF f
                      (cs.drop ((cs.takeWhile (fun x => !(x == '"'))).length + 1)) [] := by
                simp [exScanF]
              have hfb : (cs.drop
                  ((cs.takeWhile (fun x => !(x == '"'))).length + 1)).length ≤ f := by
                rw [List.length_drop]
                simp at hlen
                omega
              rw [heq]
              simp only [List.map_cons, List.flatten_cons, segRaw]
              rw [ih _ [] hfb]
              simp [List.take_append_drop]
            · have heq : exScanF (f + 1) ('`' :: cs) gap =
                  Seg.gap gap.reverse ::
                    Seg.strTok ('`' ::
                      cs.take ((cs.takeWhile (fun x => !(x == '`'))).length + 1)) ::
                    exScanF f
                      (cs.drop ((cs.takeWhile (fun x => !(x == '`'))).length + 1)) [] := by
                simp [exScanF]
              have hfb : (cs.drop
                  ((cs.takeWhile (fun x => !(x == '`'))).length + 1)).length ≤ f := by
                rw [List.length_drop]
                simp at hlen
                omega
              rw [heq]
              simp only [List.map_cons, List.flatten_cons, segRaw]
              rw [ih _ [] hfb]
              simp [List.take_append_drop]
          · have heq : exScanF (f + 1) (c :: cs) gap = exScanF f cs (c :: gap) := by
              simp only [exScanF]
              rw [if_neg h1, if_neg h2, if_neg h3]
            have hfb : cs.length ≤ f := by
              simp at hlen
              omega
            rw [heq, ih cs (c :: gap) hfb]
            simp

theorem exScan_trimR (ind : Str) : ∀ (fuel : Nat) (s gap : Str),
    scanCleanR ind (exScanF fuel s gap) = true →
    concatTexts (finalTrim (toElems ind (exScanF fuel s gap))) =
      trimNlRight (concatTexts (toElems ind (exScanF fuel s gap))) := by
  intro fuel
  induction fuel with
  | zero =>
    intro s gap _
    have hz : exScanF 0 s gap = [Seg.gap gap.reverse] := by
      cases s <;> rfl
    rw [hz]
    simp [toElems, finalTrim, concatTexts, segText]
  | succ f ih =>
    intro s gap hclean
    cases s with
    | nil =>
      have hz : exScanF (f + 1) [] gap = [Seg.gap gap.reverse] := rfl
      rw [hz]
      simp [toElems, finalTrim, concatTexts, segText]
    | cons c cs =>
      by_cases h1 : c = '/' ∧ cs.headD ' ' = '/'
      · obtain ⟨rfl, hh⟩ := h1
        obtain ⟨b, rfl⟩ : ∃ b, cs = '/' :: b := by
          cases cs with
          | nil => exact absurd hh (by simp)
          | cons a b =>
            have ha : a = '/' := by simpa using hh
            exact ⟨b, by rw [ha]⟩
        have heq : exScanF (f + 1) ('/' :: '/' :: b) gap =
            Seg.gap gap.reverse ::
              Seg.cmt ('/' :: '/' :: b.takeWhile (fun x => !(x == '\n'))) ::
              exScanF f (b.dropWhile (fun x => !(x == '\n'))) [] := by
          simp [exScanF]
        rw [heq] at hclean ⊢
        have hcl : endsNonNl
              (replIndent ind ('/' :: '/' :: b.takeWhile (fun x => !(x == '\n')))) = true ∧
            scanCleanR ind (exScanF f (b.dropWhile (fun x => !(x == '\n'))) []) = true := by
          simpa [scanCleanR] using hclean
        obtain ⟨y, l2, hy⟩ : ∃ y l2,
            toElems ind (exScanF f (b.dropWhile (fun x => !(x == '\n'))) []) = y :: l2 := by
          cases hx : exScanF f (b.dropWhile (fun x => !(x == '\n'))) [] with
          | nil => exact absurd hx (exScanF_ne_nil f _ [])
          | cons a l => exact ⟨_, _, rfl⟩
        rw [toElems_cons, toElems_cons, hy, finalTrim_cons₂, finalTrim_cons₂, ← hy]
        simp only [concatTexts_cons, segText]
        rw [ih _ [] hcl.2, ← List.append_assoc, ← List.append_assoc,
          trimNlRight_append_ends _ _ _ hcl.1]
      · by_cases h2 : c = '/' ∧ cs.headD ' ' = '*'
        · obtain ⟨rfl, hh⟩ := h2
          obtain ⟨b, rfl⟩ : ∃ b, cs = '*' :: b := by
            cases cs with
            | nil => exact absurd hh (by simp)
            | cons a b =>
              have ha : a = '*' := by simpa using hh
              exact ⟨b, by rw [ha]⟩
          cases hce : cmtEnd b with
          | some n =>
            have heq : exScanF (f + 1) ('/' :: '*' :: b) gap =
                Seg.gap gap.reverse :: Seg.cmt ('/' :: '*' :: b.take n) ::
                  exScanF f (b.drop n) [] := by
              simp [exScanF, hce]
            rw [heq] at hclean ⊢
            have hcl : endsNonNl (replIndent ind ('/' :: '*' :: b.take n)) = true ∧
                scanCleanR ind (exScanF f (b.drop n) []) = true := by
              simpa [scanCleanR] using hclean
            obtain ⟨y, l2, hy⟩ : ∃ y l2,
                toElems ind (exScanF f (b.drop n) []) = y :: l2 := by
              cases hx : exScanF f (b.drop n) [] with
              | nil => exact absurd hx (exScanF_ne_nil f _ [])
              | cons a l => exact ⟨_, _, rfl⟩
            rw [toElems_cons, toElems_cons, hy, finalTrim_cons₂, finalTrim_cons₂, ← hy]
            simp only [concatTexts_cons, segText]
            rw [ih _ [] hcl.2, ← List.append_assoc, ← List.append_assoc,
              trimNlRight_append_ends _ _ _ hcl.1]
          | none =>
            have heq : exScanF (f + 1) ('/' :: '*' :: b) gap =
                Seg.gap gap.reverse :: Seg.cmt ('/' :: '*' :: b) ::
                  exScanF f [] [] := by
              simp [exScanF, hce]
            rw [heq] at hclean ⊢
            have hcl : endsNonNl (replIndent ind ('/' :: '*' :: b)) = true ∧
                scanCleanR ind (exScanF f [] []) = true := by
              simpa [scanCleanR] using hclean
            obtain ⟨y, l2, hy⟩ : ∃ y l2, toElems ind (exScanF f [] []) = y :: l2 := by
              cases hx : exScanF f [] [] with
              | nil => exact absurd hx (exScanF_ne_nil f _ [])
              | cons a l => exact ⟨_, _, rfl⟩
            rw [toElems_cons, toElems_cons, hy, finalTrim_cons₂, finalTrim_cons₂, ← hy]
            simp only [concatTexts_cons, segText]
            rw [ih [] [] hcl.2, ← List.append_assoc, ← List.append_assoc,
              trimNlRight_append_ends _ _ _ hcl.1]
        · by_cases h3 : c = '"' ∨ c = '`'
          · rcases h3 with rfl | rfl
            · have heq : exScanF (f + 1) ('"' :: cs) gap =
                  Seg.gap gap.reverse ::
                    Seg.strTok ('"' ::
                      cs.take ((cs.takeWhile (fun x => !(x == '"'))).length + 1)) ::
                    exScanF f
                      (cs.drop ((cs.takeWhile (fun x => !(x == '"'))).length + 1)) [] := by
                simp [exScanF]
              rw [heq] at hclean ⊢
              have hcl : endsNonNl ('"' ::
                    cs.take ((cs.takeWhile (fun x => !(x == '"'))).length + 1)) = true ∧
                  scanCleanR ind (exScanF f
                    (cs.drop ((cs.takeWhile (fun x => !(x == '"'))).length + 1)) []) = true := by
                simpa [scanCleanR] using hclean
              obtain ⟨y, l2, hy⟩ : ∃ y l2, toElems ind (exScanF f
                  (cs.drop ((cs.takeWhile (fun x => !(x == '"'))).length + 1)) []) = y :: l2 := by
                cases hx : exScanF f
                    (cs.drop ((cs.takeWhile (fun x => !(x == '"'))).length + 1)) [] with
                | nil => exact absurd hx (exScanF_ne_nil f _ [])
                | cons a l => exact ⟨_, _, rfl⟩
              rw [toElems_cons, toElems_cons, hy, finalTrim_cons₂, finalTrim_cons₂, ← hy]
              simp only [concatTexts_cons, segText]
              rw [ih _ [] hcl.2, ← List.append_assoc, ← List.append_assoc,
                trimNlRight_append_ends _ _ _ hcl.1]
            · have heq : exScanF (f + 1) ('`' :: cs) gap =
                  Seg.gap gap.reverse ::
                    Seg.strTok ('`' ::
                      cs.take ((cs.takeWhile (fun x => !(x == '`'))).length + 1)) ::
                    exScanF f
                      (cs.drop ((cs.takeWhile (fun x => !(x == '`'))).length + 1)) [] := by
                simp [exScanF]
              rw [heq] at hclean ⊢
              have hcl : endsNonNl ('`' ::
                    cs.take ((cs.takeWhile (fun x => !(x == '`'))).length + 1)) = true ∧
                  scanCleanR ind (exScanF f
                    (cs.drop ((cs.takeWhile (fun x => !(x == '`'))).length + 1)) []) = true := by
                simpa [scanCleanR] using hclean
              obtain ⟨y, l2, hy⟩ : ∃ y l2, toElems ind (exScanF f
                  (cs.drop ((cs.takeWhile (fun x => !(x == '`'))).length + 1)) []) = y :: l2 := by
                cases hx : exScanF f
                    (cs.drop ((cs.takeWhile (fun x => !(x == '`'))).length + 1)) [] with
                | nil => exact absurd hx (exScanF_ne_nil f _ [])
                | cons a l => exact ⟨_, _, rfl⟩
              rw [toElems_cons, toElems_cons, hy, finalTrim_cons₂, finalTrim_cons₂, ← hy]
              simp only [concatTexts_cons, segText]
              rw [ih _ [] hcl.2, ← List.append_assoc, ← List.append_assoc,
                trimNlRight_append_ends _ _ _ hcl.1]
          · have heq : exScanF (f + 1) (c :: cs) gap = exScanF f cs (c :: gap) := by
              simp only [exScanF]
              rw [if_neg h1, if_neg h2, if_neg h3]
            rw [heq] at hclean ⊢
            exact ih cs (c :: gap) hclean

theorem toElems_nil_raw : ∀ l : List Seg,
    concatTexts (toElems [] l) = (l.map segRaw).flatten := by
  intro l
  induction l with
  | nil => rfl
  | cons sg rest ih =>
    rw [toElems_cons, concatTexts_cons]
    cases sg <;> simp [segText, segRaw, replIndent_nil, ih]

theorem getD_mem' (l : List Seg) (i : Nat) (h : i < l.length) :
    l.getD i (Seg.gap []) ∈ l := by
  rw [List.getD_eq_getElem?_getD, List.getElem?_eq_getElem h]
  simp [List.getElem_mem]

theorem stripBraces_id (src : Str) (hb : hasBraceWrap src = false) :
    stripBraces src = (src, []) := by
  unfold stripBraces
  rw [if_neg (by simp [hb])]

theorem lastMarkerIdx_none : ∀ l : List Seg, lastMarkerIdx l = none →
    ∀ sg ∈ l, segIsMarker sg = false := by
  intro l
  induction l with
  | nil => intro _ sg hsg; exact absurd hsg (by simp)
  | cons a rest ih =>
    intro h sg hsg
    unfold lastMarkerIdx at h
    rcases hr : lastMarkerIdx rest with _ | j
    · rw [hr] at h
      simp only at h
      rcases List.mem_cons.mp hsg with rfl | hsg
      · by_contra hm
        rw [if_pos (by simpa using hm)] at h
        exact absurd h (by simp)
      · exact ih hr sg hsg
    · rw [hr] at h
      exact absurd h (by simp)

theorem lastMarkerIdx_char : ∀ (l : List Seg) (i : Nat), lastMarkerIdx l = some i →
    i < l.length ∧ segIsMarker (l.getD i (Seg.gap [])) = true ∧
      ∀ j, i < j → j < l.length → segIsMarker (l.getD j (Seg.gap [])) = false := by
  intro l
  induction l with
  | nil => intro i h; exact absurd h (by simp [lastMarkerIdx])
  | cons a rest ih =>
    intro i h
    unfold lastMarkerIdx at h
    rcases hr : lastMarkerIdx rest with _ | j
    · rw [hr] at h
      simp only at h
      by_cases hm : segIsMarker a = true
      · rw [if_pos hm] at h
        have hi : i = 0 := by
          have := Option.some.inj h
          omega
        subst hi
        refine ⟨by simp, by simpa using hm, ?_⟩
        intro j hj hjl
        obtain ⟨j2, rfl⟩ : ∃ j2, j = j2 + 1 := ⟨j - 1, by omega⟩
        show segIsMarker (rest.getD j2 (Seg.gap [])) = false
        exact lastMarkerIdx_none rest hr _ (getD_mem' rest j2 (by simpa using hjl))
      · rw [if_neg hm] at h
        exact absurd h (by simp)
    · rw [hr] at h
      have hi : i = j + 1 := (Option.some.inj h).symm
      subst hi
      obtain ⟨h1, h2, h3⟩ := ih j hr
      refine ⟨by simpa using h1, by simpa using h2, ?_⟩
      intro k hk hkl
      obtain ⟨k2, rfl⟩ : ∃ k2, k = k2 + 1 := ⟨k - 1, by omega⟩
      show segIsMarker (rest.getD k2 (Seg.gap [])) = false
      exact h3 k2 (by omega) (by simpa using hkl)

theorem finalTrim_length : ∀ l : List CodeElem, (finalTrim l).length = l.length := by
  intro l
  induction l with
  | nil => rfl
  | cons e es ih =>
    cases es with
    | nil => rfl
    | cons e2 es2 => rw [finalTrim_cons₂]; simpa using ih

theorem finalTrim_getD : ∀ (l : List CodeElem) (j : Nat), j + 1 < l.length →
    (finalTrim l).getD j (CodeElem.mk [] false) = l.getD j (CodeElem.mk [] false) := by
  intro l
  induction l with
  | nil => intro j hj; simp at hj
  | cons e es ih =>
    intro j hj
    cases es with
    | nil => simp at hj
    | cons e2 es2 =>
      rw [finalTrim_cons₂]
      cases j with
      | zero => rfl
      | succ j2 =>
        show (finalTrim (e2 :: es2)).getD j2 _ = (e2 :: es2).getD j2 _
        exact ih j2 (by simpa using hj)

theorem toElems_take_getD (ind : Str) (l : List Seg) (i j : Nat)
    (hj : j < i) (hl : j < l.length) :
    (toElems ind (l.take i)).getD j (CodeElem.mk [] false) =
      CodeElem.mk (segText ind (l.getD j (Seg.gap [])))
        (segIsCmt (l.getD j (Seg.gap []))) := by
  rw [List.getD_eq_getElem?_getD, List.getD_eq_getElem?_getD]
  unfold toElems
  rw [List.getElem?_map, List.getElem?_take, if_pos hj, List.getElem?_eq_getElem hl]
  simp

/-- C7 (corrected; the no-marker clause holds of the scanned source, not
of the fully formatted code: `codeHTML` first strips a brace wrap and the
first line's indentation, and collapses newline-plus-indent sequences
inside its non-string fragments): for every source whose scan contains
no output-marker comment and whose literals terminate, the fragments of
`codeHTML` are the indent-replaced scanned segments with trailing
newlines trimmed from the final one — their concatenation is the
concatenation of the replaced segments minus trailing newlines — while
the raw segments concatenate exactly to the brace-stripped scanned
source; in particular, for every source that is not brace-wrapped the
fragment texts concatenate to the source itself minus its trailing
newlines. -/
theorem example_code_concat (src : Str)
    (hm : lastMarkerIdx (exScan (stripBraces src).1) = none)
    (hc : scanCleanR (stripBraces src).2 (exScan (stripBraces src).1) = true) :
    concatTexts (codeEls src) =
      trimNlRight (concatTexts (toElems (stripBraces src).2 (exScan (stripBraces src).1))) ∧
    ((exScan (stripBraces src).1).map segRaw).flatten = (stripBraces src).1 ∧
    (hasBraceWrap src = false → concatTexts (codeEls src) = trimNlRight src) := by
  have hels : codeEls src =
      finalTrim (toElems (stripBraces src).2 (exScan (stripBraces src).1)) := by
    unfold codeEls keptSegs
    rw [hm]
  have h1 : concatTexts (codeEls src) =
      trimNlRight
        (concatTexts (toElems (stripBraces src).2 (exScan (stripBraces src).1))) := by
    rw [hels]
    exact exScan_trimR (stripBraces src).2 (stripBraces src).1.length
      (stripBraces src).1 [] hc
  have h2 : ((exScan (stripBraces src).1).map segRaw).flatten = (stripBraces src).1 := by
    have h3 := exScanF_raw_concat (stripBraces src).1.length (stripBraces src).1 []
      (le_refl _)
    simpa [exScan] using h3
  refine ⟨h1, h2, ?_⟩
  intro hb
  have hsb := stripBraces_id src hb
  rw [h1, hsb]
  show trimNlRight (concatTexts (toElems [] (exScan src))) = trimNlRight src
  rw [toElems_nil_raw]
  have h2c : ((exScan src).map segRaw).flatten = src := by
    rw [hsb] at h2
    exact h2
  rw [h2c]

/-- Witness for C7: a brace-wrapped example body with one indented
comment and two indented calls; the brace strip and the indent collapse
both fire, the scan is marker-free with terminated literals, and the
theorem applies in full. -/
theorem example_code_concat_witness :
    lastMarkerIdx (exScan
      (stripBraces (("\x7b\n\ta()\n\t// hi\n\tb()\n\x7d").toList)).1) = none ∧
    scanCleanR (stripBraces (("\x7b\n\ta()\n\t// hi\n\tb()\n\x7d").toList)).2
      (exScan (stripBraces (("\x7b\n\ta()\n\t// hi\n\tb()\n\x7d").toList)).1) = true ∧
    (concatTexts (codeEls (("\x7b\n\ta()\n\t// hi\n\tb()\n\x7d").toList)) =
      trimNlRight (concatTexts
        (toElems (stripBraces (("\x7b\n\ta()\n\t// hi\n\tb()\n\x7d").toList)).2
          (exScan (stripBraces (("\x7b\n\ta()\n\t// hi\n\tb()\n\x7d").toList)).1))) ∧
    ((exScan (stripBraces (("\x7b\n\ta()\n\t// hi\n\tb()\n\x7d").toList)).1).map
        segRaw).flatten =
      (stripBraces (("\x7b\n\ta()\n\t// hi\n\tb()\n\x7d").toList)).1 ∧
    (hasBraceWrap (("\x7b\n\ta()\n\t// hi\n\tb()\n\x7d").toList) = false →
      concatTexts (codeEls (("\x7b\n\ta()\n\t// hi\n\tb()\n\x7d").toList)) =
        trimNlRight (("\x7b\n\ta()\n\t// hi\n\tb()\n\x7d").toList))) :=
  ⟨by decide, by decide,
    example_code_concat (("\x7b\n\ta()\n\t// hi\n\tb()\n\x7d").toList)
      (by decide) (by decide)⟩

/-- Counterexample to C7 as stated: on the brace-wrapped block body
produced for an example (braces and one indented call), the fragments
concatenate to the brace-stripped, de-indented text, not to the fully
formatted code minus trailing blank lines. -/
theorem example_code_concat_cex :
    concatTexts (codeEls (("\x7b\n\tx()\n\x7d").toList)) ≠
      trimNlRight (("\x7b\n\tx()\n\x7d").toList) := by
  decide

/-- C10: when the scan contains marker comments, `codeHTML` truncates at
the LAST one: the fragment list is the final-trimmed image of the
segments strictly before it, the segment at the truncation index is a
marker comment, no later segment is, the fragment count equals the
truncation index, and every fragment other than the final (trimmed) one
is kept verbatim. -/
theorem example_last_marker_truncation (src : Str) (i : Nat)
    (hm : lastMarkerIdx (exScan (stripBraces src).1) = some i) :
    codeEls src =
      finalTrim (toElems (stripBraces src).2 ((exScan (stripBraces src).1).take i)) ∧
    i < (exScan (stripBraces src).1).length ∧
    segIsMarker ((exScan (stripBraces src).1).getD i (Seg.gap [])) = true ∧
    (∀ j, i < j → j < (exScan (stripBraces src).1).length →
      segIsMarker ((exScan (stripBraces src).1).getD j (Seg.gap [])) = false) ∧
    (codeEls src).length = i ∧
    (∀ j, j + 1 < i →
      (codeEls src).getD j (CodeElem.mk [] false) =
        CodeElem.mk
          (segText (stripBraces src).2 ((exScan (stripBraces src).1).getD j (Seg.gap [])))
          (segIsCmt ((exScan (stripBraces src).1).getD j (Seg.gap [])))) := by
  obtain ⟨h1, h2, h3⟩ := lastMarkerIdx_char _ i hm
  have hels : codeEls src =
      finalTrim (toElems (stripBraces src).2 ((exScan (stripBraces src).1).take i)) := by
    unfold codeEls keptSegs
    rw [hm]
  have hlen2 : (toElems (stripBraces src).2 ((exScan (stripBraces src).1).take i)).length
      = i := by
    unfold toElems
    rw [List.length_map, List.length_take]
    omega
  refine ⟨hels, h1, h2, h3, ?_, ?_⟩
  · rw [hels, finalTrim_length, hlen2]
  · intro j hj
    rw [hels, finalTrim_getD _ j (by rw [hlen2]; omega)]
    exact toElems_take_getD _ _ i j (by omega) (by omega)

/-- Witness for C10: a snippet with two output-marker comments; the scan
has five segments, the markers sit at indices 1 and 3, and the output
keeps exactly the three fragments before the last marker. -/
theorem example_last_marker_truncation_witness :
    lastMarkerIdx (exScan
      (stripBraces (("a()\n// output: one\nb()\n// output: two\nc()\n").toList)).1) =
        some 3 ∧
    (codeEls (("a()\n// output: one\nb()\n// output: two\nc()\n").toList)).length = 3 :=
  ⟨by decide,
    (example_last_marker_truncation
      (("a()\n// output: one\nb()\n// output: two\nc()\n").toList) 3
      (by decide)).2.2.2.2.1⟩

/-- C8: `codeString` returns the distinct error value exactly when the
example or its code is absent; in that case the `codeHTML` wrapper
substitutes the fixed placeholder fragment instead of propagating the
failure, and in every other case it proceeds to render the formatted
code (the external formatter is modelled as total, so input shape is the
only failure source). -/
theorem example_error_placeholder (ex : Option Example) :
    ((∃ e, codeString ex = Except.error e) ↔
      (ex = none ∨ ∃ x, ex = some x ∧ x.code = none)) ∧
    (∀ e, codeString ex = Except.error e →
      e = ("Please include an example with code").toList ∧
      codeHTMLTop ex = [CodeElem.mk (("Error rendering example code.").toList) false]) ∧
    (∀ x c, ex = some x → x.code = some c →
      ∃ s, codeString ex = Except.ok s ∧ codeHTMLTop ex = codeEls s) := by
  cases ex with
  | none =>
    refine ⟨by simp [codeString], ?_, ?_⟩
    · intro e he
      constructor
      · simp [codeString] at he
        exact he.symm
      · simp [codeHTMLTop, codeString]
    · intro x c hx
      exact absurd hx (by simp)
  | some x =>
    cases hx : x.code with
    | none =>
      refine ⟨by simp [codeString, hx], ?_, ?_⟩
      · intro e he
        constructor
        · simp [codeString, hx] at he
          exact he.symm
        · simp [codeHTMLTop, codeString, hx]
      · intro x2 c hxx hc
        obtain rfl := Option.some.inj hxx
        rw [hx] at hc
        exact absurd hc (by simp)
    | some c =>
      cases hp : x.play with
      | none =>
        refine ⟨by simp [codeString, hx, hp], ?_, ?_⟩
        · intro e he
          rw [show codeString (some x) = Except.ok c from by simp [codeString, hx, hp]] at he
          exact absurd he (by simp)
        · intro x2 c2 hxx hc
          exact ⟨c, by simp [codeString, hx, hp], by simp [codeHTMLTop, codeString, hx, hp]⟩
      | some p =>
        refine ⟨by simp [codeString, hx, hp], ?_, ?_⟩
        · intro e he
          rw [show codeString (some x) = Except.ok p from by simp [codeString, hx, hp]] at he
          exact absurd he (by simp)
        · intro x2 c2 hxx hc
          exact ⟨p, by simp [codeString, hx, hp], by simp [codeHTMLTop, codeString, hx, hp]⟩

/-- Witness for C8: the absent example yields the placeholder fragment. -/
theorem example_error_placeholder_witness :
    codeHTMLTop none = [CodeElem.mk (("Error rendering example code.").toList) false] :=
  ((example_error_placeholder none).2.1
    (("Please include an example with code").toList) rfl).2

/-- C9: anchor-ID validation is an unconditional fast-fail —
`validateGoDottedExpr` (hence `safeGoID`) panics, modelled as `none`,
precisely when some character falls outside underscore, letters, digits
and dot, and on every clean string it returns normally with the string
passed through unchanged; no recoverable error value exists in its
signature. -/
theorem anchor_id_validation (s : Str) :
    (validateGoDottedExpr s = none ↔ ∃ c ∈ s, isBadIDChar c = true) ∧
    (safeGoID s = none ↔ ∃ c ∈ s, isBadIDChar c = true) ∧
    ((∀ c ∈ s, isBadIDChar c = false) → safeGoID s = some s) := by
  have hval : validateGoDottedExpr s = none ↔ ∃ c ∈ s, isBadIDChar c = true := by
    unfold validateGoDottedExpr
    constructor
    · intro h
      by_cases ha : s.any isBadIDChar = true
      · simpa [List.any_eq_true] using ha
      · rw [if_neg (by simpa using ha)] at h
        exact absurd h (by simp)
    · intro h
      rw [if_pos (by simpa [List.any_eq_true] using h)]
  have hsafe : safeGoID s = none ↔ validateGoDottedExpr s = none := by
    unfold safeGoID
    cases hv : validateGoDottedExpr s <;> simp [hv]
  refine ⟨hval, hsafe.trans hval, ?_⟩
  intro h
  unfold safeGoID
  have hv : validateGoDottedExpr s = some () := by
    unfold validateGoDottedExpr
    rw [if_neg]
    intro ha
    obtain ⟨c, hc1, hc2⟩ := List.any_eq_true.mp ha
    exact absurd hc2 (by simp [h c hc1])
  rw [hv]

/-- Witness for C9: the dotted expression `Time.Equal` passes validation
unchanged, and the same string with a space panics. -/
theorem anchor_id_validation_witness :
    ((∀ c ∈ (("Time.Equal").toList), isBadIDChar c = false) →
      safeGoID (("Time.Equal").toList) = some (("Time.Equal").toList)) ∧
    safeGoID (("Time.Equal").toList) = some (("Time.Equal").toList) ∧
    safeGoID (("Time Equal").toList) = none :=
  ⟨(anchor_id_validation (("Time.Equal").toList)).2.2,
   (anchor_id_validation (("Time.Equal").toList)).2.2 (by decide),
   by decide⟩

end Godoc
